import Mathlib

/-!
Shallow embedding of knots.py (THexplorer): lattice points in the diagonal
coordinate system, Turks' Head knots, circuit tracing, strand decomposition,
the path resolver and the Layers search.

Python integers are embedded as Int; Python's % with a positive right operand
agrees with Int.emod, which is what % means on Int here.  Exceptions raised by
the Python code become an explicit error type in an Except.  While-loops are
embedded with an explicit fuel argument; a fuel of the stated size is proved
sufficient below wherever a claim depends on it, so that the fuelOut error
marks exactly the runs on which the Python loop would not have terminated.
-/

namespace Knots

/-- A lattice point (x, y) in the diagonal system.  The Python Point also
stores a back-reference to its owning Knot, used only to fetch xmodulus inside
Point.lines(); here the modulus is passed explicitly instead.  Point equality
in Python compares coordinates, exactly as equality on this pair type does. -/
abbrev Pt := Int × Int

/-- Error classes raised by the embedded code.  Each constructor corresponds
to one raise site in knots.py, except fuelOut which marks fuel exhaustion of
an embedded while loop. -/
inductive KErr where
  /-- Raised as "Knot is not tyable." in Knot.circuit. -/
  | notTyable
  /-- Raised as "Start point must be pivot" in Knot.circuit. -/
  | startNotPivot
  /-- Raised as "Knot must have a lower left corner" in Knot.reconfigure. -/
  | noLowerLeft
  /-- Models Knot([]): the constructor returns early leaving the object with
  no attributes, so any later use of the knot fails. -/
  | emptyKnot
  /-- Raised as "??? Trying to draw horizontal line!?" in Knot.pointsbetween. -/
  | horizontalLine
  /-- Raised as "Could not complete line ..." in Knot.pointsbetween. -/
  | incompleteLine
  /-- Raised as "Layers must not be prime to total." in Knot.Layers. -/
  | layersPrime
  /-- Models the ValueError from itertools.combinations with negative r. -/
  | valueErr
  /-- Fuel exhaustion: the corresponding Python loop would not terminate. -/
  | fuelOut
deriving DecidableEq, Repr

/-- Raise condition of Point.__init__, translated literally:
Python `not isinstance(x,int) and isinstance(y,int) and not (x+y)%2`,
where for Int-valued inputs both isinstance tests are true.  Note the missing
parentheses in the source make the leading `not` apply only to the first
isinstance, so the condition is False for every pair of integers and the
intended parity check never fires. -/
def pointInitRaises (x y : Int) : Bool :=
  (!true) && (true && ((x + y) % 2 == 0))

/-- Point.lines(self): the pair ((x+y) % m, (x-y) % m) of intercepts of the
slope -1 and slope +1 diagonals through the point, where m is the owning
knot's xmodulus. -/
def plines (m : Int) (q : Pt) : Int × Int :=
  ((q.1 + q.2) % m, (q.1 - q.2) % m)

/-- A Turks' Head knot: the pivot list together with the scalars computed by
reconfigure/validate. -/
structure Knot where
  pivots : List Pt
  xmodulus : Int
  ymax : Int
  valid : Bool
deriving DecidableEq, Repr

/-- Sort order used in Knot.reconfigure: cmp(a.y,b.y) or cmp(a.x,b.x), i.e.
row-major order (ascending y, then ascending x).  Python's list.sort is a
stable sort, and two pivots tie under this order only when they have equal
coordinates, so every sort of the pivot list returns the same list; the
insertion sort used below is therefore the Python sort. -/
def pivotRel (a b : Pt) : Prop := a.2 < b.2 ∨ (a.2 = b.2 ∧ a.1 ≤ b.1)

instance : DecidableRel pivotRel := fun a b =>
  inferInstanceAs (Decidable (a.2 < b.2 ∨ (a.2 = b.2 ∧ a.1 ≤ b.1)))

instance : IsTotal Pt pivotRel :=
  ⟨fun a b => by
    unfold pivotRel
    omega⟩

instance : IsTrans Pt pivotRel :=
  ⟨fun a b c hab hbc => by
    unfold pivotRel at *
    omega⟩

/-- Python min over a nonempty list of some integer attribute of the points:
a fold of min over the list (seeding with the first element and folding over
the whole list gives the same value). -/
def foldMin (f : Pt → Int) (seed : Int) (pts : List Pt) : Int :=
  pts.foldl (fun a q => min a (f q)) seed

/-- Python max over a nonempty list of some integer attribute of the points. -/
def foldMax (f : Pt → Int) (seed : Int) (pts : List Pt) : Int :=
  pts.foldl (fun a q => max a (f q)) seed

/-- Translation of every point by (-mx, -my), the normalization step of
Knot.reconfigure. -/
def shiftPts (mx my : Int) (pts : List Pt) : List Pt :=
  pts.map (fun q => (q.1 - mx, q.2 - my))

/-- Knot.__init__ together with Knot.reconfigure and Knot.validate.
An empty point list makes the Python constructor return early, leaving a
knot with no attributes; that is the emptyKnot error here.  The max of the
x coordinates is taken over the translated list, which is a permutation of
the sorted list the Python code reads it from, and its seed is the first
translated point's x, so it is the Python max over the same values. -/
def mkKnot (ptlist : List Pt) : Except KErr Knot :=
  match ptlist with
  | [] => .error .emptyKnot
  | p :: ps =>
    let pts := p :: ps
    let minx := foldMin Prod.fst p.1 pts
    let miny := foldMin Prod.snd p.2 pts
    if (minx, miny) ∈ pts then
      let moved := shiftPts minx miny pts
      let sorted := List.insertionSort pivotRel moved
      let mx := foldMax Prod.fst (p.1 - minx) moved
      let xmod := mx + (2 - mx % 2)
      let ym := foldMax Prod.snd (p.2 - miny) moved
      .ok { pivots := sorted, xmodulus := xmod, ymax := ym,
            valid := (sorted.length % 2 == 0) && (xmod == (sorted.length : Int)) }
    else .error .noLowerLeft

/-- Intercept selected in Knot.line: p.lines()[0 if slope <= 0 else 1]. -/
def icept (m slope : Int) (q : Pt) : Int :=
  if slope ≤ 0 then (q.1 + q.2) % m else (q.1 - q.2) % m

/-- Knot.line(p, slope): every pivot sharing the diagonal of the given slope
through p, with the first occurrence of p itself removed (list.remove). -/
def Knot.line (k : Knot) (p : Pt) (slope : Int) : List Pt :=
  (k.pivots.filter (fun q => icept k.xmodulus slope p == icept k.xmodulus slope q)).erase p

/-- While-loop of Knot.circuit.  State: current point p, current direction,
accumulated reversed trace rv.  The loop exits when p has come back to start
and at least one step was taken; a line lookup that does not produce exactly
one point raises "Knot is not tyable." -/
def circuitGo (k : Knot) (start : Pt) : Nat → Pt → Int → List Pt → Except KErr (List Pt)
  | 0, p, _, rv =>
    if p = start ∧ rv ≠ [] then .ok rv.reverse else .error .fuelOut
  | fuel + 1, p, direction, rv =>
    if p = start ∧ rv ≠ [] then .ok rv.reverse
    else
      match k.line p direction with
      | [q] => circuitGo k start fuel q (-direction) (p :: rv)
      | _ => .error .notTyable

/-- Knot.circuit(p): trace the closed circuit through p, alternating the
diagonal direction, starting with slope +1.  Fuel 2*len+2 is sufficient:
the loop never takes more than 2*len+1 steps (proved below). -/
def Knot.circuit (k : Knot) (p : Pt) : Except KErr (List Pt) :=
  if p ∈ k.pivots then circuitGo k p (2 * k.pivots.length + 2) p 1 []
  else .error .startNotPivot

/-- While-loop of Knot.strands.  visited is the Python working set
set(self.pivots) (same membership; duplicates are irrelevant to it), sta the
pending start point, rv the accumulated circuits in reverse.  sel abstracts
the unspecified order in which Python's set.pop picks an element: at each
pop, the element of index sel visited % length is taken.  difference_update
is the filter removing every point of the traced circuit. -/
def strandsGo (k : Knot) (sel : List Pt → Nat) :
    Nat → List Pt → Option Pt → List (List Pt) → Except KErr (List (List Pt))
  | 0, visited, _, rv =>
    if visited.isEmpty then .ok rv.reverse else .error .fuelOut
  | fuel + 1, visited, sta, rv =>
    match visited with
    | [] => .ok rv.reverse
    | v :: vs =>
      let start := match sta with
        | some s => s
        | none => (v :: vs).get ⟨sel (v :: vs) % (vs.length + 1), Nat.mod_lt _ (Nat.succ_pos _)⟩
      match k.circuit start with
      | .error e => .error e
      | .ok current =>
        strandsGo k sel fuel ((v :: vs).filter (fun q => !(current.contains q))) none
          (current :: rv)

/-- Knot.strands(start): cover all pivots by circuits.  Fuel len+1 is
sufficient since every iteration removes at least the circuit's start from
the working set (proved below). -/
def Knot.strands (k : Knot) (sel : List Pt → Nat) (start : Option Pt) :
    Except KErr (List (List Pt)) :=
  strandsGo k sel (k.pivots.length + 1) k.pivots start []

/-- One step of the circuit walk: the line lookup from p in direction d,
defined only when the lookup returns exactly one point (otherwise the
Python loop raises). -/
def stepFn (k : Knot) (p : Pt) (d : Int) : Option Pt :=
  match k.line p d with
  | [q] => some q
  | _ => none

/-- State of the circuit walk of Knot.circuit after t steps from (start, 1):
the current point and the direction to use next; none once a lookup failed. -/
def iterSt (k : Knot) (start : Pt) : Nat → Option (Pt × Int)
  | 0 => some (start, 1)
  | t + 1 =>
    (iterSt k start t).bind (fun s => (stepFn k s.1 s.2).map (fun q => (q, -s.2)))

/-- Pivot component of the walk state at time t (with an irrelevant default
for failed states). -/
def pAt (k : Knot) (start : Pt) (t : Nat) : Pt :=
  ((iterSt k start t).getD (start, 1)).1

/-- Direction used by the walk at time t: +1 at even t, -1 at odd t. -/
def dAt (t : Nat) : Int := if t % 2 = 0 then 1 else -1

/-- Run shape of a successful Knot.circuit call from s: the walk has defined
states up to time T, first returns to s at time T, and T is positive. -/
structure CircRun (k : Knot) (s : Pt) (T : Nat) : Prop where
  pos : 0 < T
  somes : ∀ u, u ≤ T → (iterSt k s u).isSome
  closes : pAt k s T = s
  mids : ∀ u, 0 < u → u < T → pAt k s u ≠ s

/-- Python cmp. -/
def pycmp (a b : Int) : Int :=
  if a < b then -1 else if b < a then 1 else 0

/-- Knot.slopebetween(p1, p2): slope of the shared diagonal, 0 if none; when
the two points lie on both diagonals simultaneously, fall back to comparing
y coordinates. -/
def Knot.slopebetween (k : Knot) (p1 p2 : Pt) : Int :=
  if plines k.xmodulus p1 = plines k.xmodulus p2 then pycmp p1.2 p2.2
  else if (plines k.xmodulus p1).1 = (plines k.xmodulus p2).1 then -1
  else if (plines k.xmodulus p1).2 = (plines k.xmodulus p2).2 then 1
  else 0

/-- While-loop of Knot.pointsbetween: step one lattice point at a time along
the diagonal, x wrapping modulo xmodulus, while inside the vertical band and
short of the end point; afterwards, not having reached the end point raises
"Could not complete line". -/
def pointsbetweenGo (k : Knot) (endp : Pt) (slope direction : Int) :
    Nat → Int → Int → List Pt → Except KErr (List Pt)
  | 0, x, y, rv =>
    if endp ≠ (x, y) ∧ 0 ≤ x ∧ 0 < y ∧ y < k.ymax then .error .fuelOut
    else if endp ≠ (x, y) then .error .incompleteLine
    else .ok rv.reverse
  | fuel + 1, x, y, rv =>
    if endp ≠ (x, y) ∧ 0 ≤ x ∧ 0 < y ∧ y < k.ymax then
      pointsbetweenGo k endp slope direction fuel
        ((x + slope * direction) % k.xmodulus) (y + direction) ((x, y) :: rv)
    else if endp ≠ (x, y) then .error .incompleteLine
    else .ok rv.reverse

/-- Knot.pointsbetween(start, end): the lattice points strictly between the
two points along their shared diagonal; [] when they share no diagonal.
The y coordinate moves by the fixed direction every iteration and the loop
runs only while 0 < y < ymax, so fuel ymax.natAbs + 2 is sufficient
(proved below). -/
def Knot.pointsbetween (k : Knot) (start endp : Pt) : Except KErr (List Pt) :=
  let slope := k.slopebetween start endp
  if slope = 0 then .ok []
  else
    let direction := -(pycmp start.2 endp.2)
    if direction = 0 then .error .horizontalLine
    else pointsbetweenGo k endp slope direction (k.ymax.natAbs + 2)
      ((start.1 + slope * direction) % k.xmodulus) (start.2 + direction) []

/-- Value of the let minx in mkKnot on a nonempty list. -/
def cornerX (p : Pt) (ps : List Pt) : Int := foldMin Prod.fst p.1 (p :: ps)

/-- Value of the let miny in mkKnot on a nonempty list. -/
def cornerY (p : Pt) (ps : List Pt) : Int := foldMin Prod.snd p.2 (p :: ps)

/-- The translated point list (let moved) of mkKnot on a nonempty list. -/
def normPts (p : Pt) (ps : List Pt) : List Pt :=
  shiftPts (cornerX p ps) (cornerY p ps) (p :: ps)

/-- The maximum x coordinate (let mx) of mkKnot on a nonempty list. -/
def knotMaxX (p : Pt) (ps : List Pt) : Int :=
  foldMax Prod.fst (p.1 - cornerX p ps) (normPts p ps)

/-- The maximum y coordinate (let ym) of mkKnot on a nonempty list. -/
def knotMaxY (p : Pt) (ps : List Pt) : Int :=
  foldMax Prod.snd (p.2 - cornerY p ps) (normPts p ps)

/-- The knot built by mkKnot on a nonempty list whose corner check passes. -/
def knotOf (p : Pt) (ps : List Pt) : Knot :=
  { pivots := List.insertionSort pivotRel (normPts p ps)
    xmodulus := knotMaxX p ps + (2 - knotMaxX p ps % 2)
    ymax := knotMaxY p ps
    valid := ((List.insertionSort pivotRel (normPts p ps)).length % 2 == 0) &&
      (knotMaxX p ps + (2 - knotMaxX p ps % 2) ==
        (((List.insertionSort pivotRel (normPts p ps)).length : Int))) }

/-- Maximum pivot x coordinate of a built knot, as the spec speaks of it
(every built knot has nonnegative x coordinates with 0 attained, so the
seed 0 is neutral). -/
def pivotMaxX (k : Knot) : Int := foldMax Prod.fst 0 k.pivots

/-- Python range(a, b, 2). -/
def range2 (a b : Int) : List Int :=
  (List.range ((b - a + 1) / 2).toNat).map (fun (i : Nat) => a + 2 * (i : Int))

/-- Knot.TH(leads, bights): bights pivots at height 0 with x = 0,2,...,
and bights pivots at height leads with x = leads%2, leads%2+2, ...
(zip with a list of equal length), then normalized by the constructor. -/
def Knot.TH (leads bights : Int) : Except KErr Knot :=
  mkKnot ((range2 0 (2 * bights)).map (fun x => (x, (0 : Int))) ++
          (range2 (leads % 2) (2 * bights)).map (fun x => (x, leads)))

/-- Python 2 fractions.gcd: Euclid's loop `while b: a, b = b, a % b` with the
Python % (floor remainder, Int.fmod), so the result carries the sign of the
last nonzero remainder.  Fuel natAbs b + 1 outlasts the loop since the
remainder's absolute value strictly decreases. -/
def pygcdGo : Nat → Int → Int → Int
  | 0, a, _ => a
  | fuel + 1, a, b => if b = 0 then a else pygcdGo fuel b (Int.fmod a b)

/-- fractions.gcd(a, b) as called by Knot.Layers. -/
def pygcd (a b : Int) : Int := pygcdGo (b.natAbs + 1) a b

/-- itertools.combinations(l, r), in the order itertools yields them. -/
def combosOf : List Int → Nat → List (List Int)
  | _, 0 => [[]]
  | [], _ + 1 => []
  | x :: xs, r + 1 => (combosOf xs r).map (fun c => x :: c) ++ combosOf xs (r + 1)

/-- itertools.product of a list of candidate lists, in itertools order. -/
def productOf : List (List (List Int)) → List (List (List Int))
  | [] => [[]]
  | l :: ls => l.flatMap (fun c => (productOf ls).map (fun p => c :: p))

/-- The pivot list assembleknot builds for one combination choice: the flat
bottom row (x, 0) for x in range(0, 2*total, 2), then for each layer i and
each section j the layer's combination shifted by 2*j*total/sections (Python
floor division) plus the height parity shift. -/
def assemblePts (total : Int) (layers : List (Int × Int)) (combos : List (List Int)) : List Pt :=
  (range2 0 (2 * total)).map (fun x => (x, (0 : Int))) ++
    (List.zip layers combos).flatMap (fun lc =>
      let sections := pygcd total lc.1.1
      let shift := lc.1.2 % 2
      (List.range sections.toNat).flatMap (fun j =>
        lc.2.map (fun x => (x + Int.fdiv (2 * (j : Int) * total) sections + shift, lc.1.2))))

/-- The candidate loop of Knot.Layers.  Each candidate is assembled (a
construction error propagates: assembleknot is outside the try), then
decomposed; a decomposition error discards the candidate when caught and
propagates otherwise.  catchAll = true reproduces the source's bare
`except Exception`; catchAll = false catches only the not-tyable error, as
the spec describes.  A candidate joins the results when its strand count is
nonzero.  Knot lacks an equality method, so the Python result set never
identifies two candidates and is a list here. -/
def layersGo (sel : List Pt → Nat) (catchAll : Bool) (total : Int)
    (layers : List (Int × Int)) : List (List (List Int)) → Except KErr (List Knot)
  | [] => .ok []
  | comb :: rest =>
    match mkKnot (assemblePts total layers comb) with
    | .error e => .error e
    | .ok k =>
      match k.strands sel none with
      | .ok out =>
        match layersGo sel catchAll total layers rest with
        | .ok rs => .ok (if out.length = 0 then rs else k :: rs)
        | .error e => .error e
      | .error e =>
        if catchAll = true ∨ e = .notTyable then layersGo sel catchAll total layers rest
        else .error e

/-- Knot.Layers(layers) with the catch policy as a parameter: the gcd
precondition check, the per-layer combination iterators, and the candidate
loop over their product.  sel abstracts the set.pop order inside strands. -/
def layersRun (sel : List Pt → Nat) (catchAll : Bool) (layers : List (Int × Int)) :
    Except KErr (List Knot) :=
  let total := (layers.map Prod.fst).sum
  if layers.any (fun e => decide (pygcd total e.1 < 2)) then .error .layersPrime
  else
    layersGo sel catchAll total layers
      (productOf (layers.map (fun layer =>
        let sections := pygcd total layer.1
        combosOf (range2 0 (2 * Int.fdiv total sections)) (Int.fdiv layer.1 sections).toNat)))

/-- Knot.Layers as written in the source: the per-candidate try catches every
exception. -/
def Knot.Layers (sel : List Pt → Nat) (layers : List (Int × Int)) :
    Except KErr (List Knot) :=
  layersRun sel true layers

/-- The Layers search as the spec words it: only not-tyable traversal
failures are caught per candidate; everything else aborts the operation. -/
def LayersCatchNotTyable (sel : List Pt → Nat) (layers : List (Int × Int)) :
    Except KErr (List Knot) :=
  layersRun sel false layers

/-- A bottom-row pivot of the TH knot. -/
def botPt (i : Nat) : Pt := ((2 * (i : Int)), 0)

/-- A top-row pivot of the TH knot (leads l): x = l % 2 + 2j, y = l. -/
def topPt (l : Int) (j : Nat) : Pt := (l % 2 + 2 * (j : Int), l)

/-- The bottom row of the TH knot, evaluated. -/
def thBot (bn : Nat) : List Pt := (List.range bn).map botPt

/-- The top row of the TH knot, evaluated. -/
def thTop (l : Int) (bn : Nat) : List Pt := (List.range bn).map (topPt l)

/-- The pivot list Knot.TH(l, b) builds, for positive arguments. -/
def thPts (l b : Int) : List Pt := thBot b.toNat ++ thTop l b.toNat

/-- The knot Knot.TH(l, b) evaluates to, for positive arguments. -/
def thKnot (l b : Int) : Knot := ⟨thPts l b, 2 * b, l, true⟩

/-- Half the leads, rounded down, as a natural number. -/
def thL (l : Int) : Nat := (l / 2).toNat

/-- The leads parity, as a natural number. -/
def thR (l : Int) : Nat := (l % 2).toNat

/-- Additive inverse of thL modulo the number of bights. -/
def thCL (l : Int) (bn : Nat) : Nat := bn - thL l % bn

/-- Additive inverse of thL + thR modulo the number of bights. -/
def thCLR (l : Int) (bn : Nat) : Nat := bn - (thL l + thR l) % bn

/-- Index step of one full double-step of a circuit started on the top row:
congruent to minus the leads modulo the number of bights. -/
def thStepT (l : Int) (bn : Nat) : Nat := thCL l bn + thCLR l bn

/-- Membership of a pivot in residue class c of the TH strand partition:
bottom pivots whose index is congruent to c, top pivots whose index is
congruent to c + thL, modulo g. -/
def thClass (l : Int) (bn g c : Nat) (q : Pt) : Bool :=
  decide ((∃ i ∈ Finset.range bn, i % g = c % g ∧ q = botPt i) ∨
          (∃ j ∈ Finset.range bn, j % g = (c + thL l) % g ∧ q = topPt l j))

/-! ## Facts about the fold-based min and max -/

theorem foldMin_cons (f : Pt → Int) (s : Int) (q : Pt) (l : List Pt) :
    foldMin f s (q :: l) = foldMin f (min s (f q)) l := rfl

theorem foldMax_cons (f : Pt → Int) (s : Int) (q : Pt) (l : List Pt) :
    foldMax f s (q :: l) = foldMax f (max s (f q)) l := rfl

theorem foldMin_le_seed (f : Pt → Int) (seed : Int) (pts : List Pt) :
    foldMin f seed pts ≤ seed := by
  induction pts generalizing seed with
  | nil => exact le_refl _
  | cons q l ih =>
    rw [foldMin_cons]
    exact le_trans (ih _) (min_le_left _ _)

theorem foldMin_le_mem (f : Pt → Int) (seed : Int) {pts : List Pt} {q : Pt} (hq : q ∈ pts) :
    foldMin f seed pts ≤ f q := by
  induction pts generalizing seed with
  | nil => cases hq
  | cons r l ih =>
    rw [foldMin_cons]
    rcases List.mem_cons.mp hq with h | h
    · subst h
      exact le_trans (foldMin_le_seed _ _ _) (min_le_right _ _)
    · exact ih _ h

theorem foldMax_seed_le (f : Pt → Int) (seed : Int) (pts : List Pt) :
    seed ≤ foldMax f seed pts := by
  induction pts generalizing seed with
  | nil => exact le_refl _
  | cons q l ih =>
    rw [foldMax_cons]
    exact le_trans (le_max_left _ _) (ih _)

theorem foldMax_mem_le (f : Pt → Int) (seed : Int) {pts : List Pt} {q : Pt} (hq : q ∈ pts) :
    f q ≤ foldMax f seed pts := by
  induction pts generalizing seed with
  | nil => cases hq
  | cons r l ih =>
    rw [foldMax_cons]
    rcases List.mem_cons.mp hq with h | h
    · subst h
      exact le_trans (le_max_right _ _) (foldMax_seed_le _ _ _)
    · exact ih _ h

theorem foldMax_eq_seed_or_mem (f : Pt → Int) (seed : Int) (pts : List Pt) :
    foldMax f seed pts = seed ∨ ∃ q ∈ pts, foldMax f seed pts = f q := by
  induction pts generalizing seed with
  | nil => exact Or.inl rfl
  | cons r l ih =>
    rw [foldMax_cons]
    rcases ih (max seed (f r)) with h | ⟨q, hq, h⟩
    · rcases max_choice seed (f r) with hm | hm
      · exact Or.inl (h.trans hm)
      · exact Or.inr ⟨r, List.mem_cons_self _ _, h.trans hm⟩
    · exact Or.inr ⟨q, List.mem_cons_of_mem _ hq, h⟩

/-! ## Characterization of mkKnot -/

theorem mkKnot_cons (p : Pt) (ps : List Pt) :
    mkKnot (p :: ps) = if (cornerX p ps, cornerY p ps) ∈ (p :: ps)
      then .ok (knotOf p ps) else .error .noLowerLeft := rfl

theorem mkKnot_ok_elim {l : List Pt} {k : Knot} (h : mkKnot l = .ok k) :
    ∃ p ps, l = p :: ps ∧ (cornerX p ps, cornerY p ps) ∈ (p :: ps) ∧ k = knotOf p ps := by
  cases l with
  | nil => simp [mkKnot] at h
  | cons p ps =>
    rw [mkKnot_cons] at h
    split at h
    · exact ⟨p, ps, rfl, by assumption, ((Except.ok.injEq _ _).mp h).symm⟩
    · cases h

theorem normPts_head_mem (p : Pt) (ps : List Pt) :
    (p.1 - cornerX p ps, p.2 - cornerY p ps) ∈ normPts p ps := by
  exact List.mem_map_of_mem _ (List.mem_cons_self _ _)

theorem mem_normPts_x_nonneg {p : Pt} {ps : List Pt} {q : Pt} (hq : q ∈ normPts p ps) :
    0 ≤ q.1 := by
  rcases List.mem_map.mp hq with ⟨r, hr, rfl⟩
  have := foldMin_le_mem Prod.fst p.1 hr
  simp only [cornerX]
  omega

theorem mem_normPts_y_nonneg {p : Pt} {ps : List Pt} {q : Pt} (hq : q ∈ normPts p ps) :
    0 ≤ q.2 := by
  rcases List.mem_map.mp hq with ⟨r, hr, rfl⟩
  have := foldMin_le_mem Prod.snd p.2 hr
  simp only [cornerY]
  omega

theorem knotMaxX_nonneg (p : Pt) (ps : List Pt) : 0 ≤ knotMaxX p ps := by
  have h1 : cornerX p ps ≤ p.1 := foldMin_le_seed _ _ _
  have h2 := foldMax_seed_le Prod.fst (p.1 - cornerX p ps) (normPts p ps)
  show 0 ≤ foldMax Prod.fst (p.1 - cornerX p ps) (normPts p ps)
  omega

theorem knotMaxX_attained (p : Pt) (ps : List Pt) :
    ∃ q ∈ normPts p ps, knotMaxX p ps = q.1 := by
  rcases foldMax_eq_seed_or_mem Prod.fst (p.1 - cornerX p ps) (normPts p ps) with h | ⟨q, hq, h⟩
  · exact ⟨(p.1 - cornerX p ps, p.2 - cornerY p ps), normPts_head_mem p ps, h⟩
  · exact ⟨q, hq, h⟩

theorem knotOf_pivots_perm (p : Pt) (ps : List Pt) :
    (knotOf p ps).pivots.Perm (normPts p ps) := List.perm_insertionSort _ _

theorem knotOf_pivotMaxX (p : Pt) (ps : List Pt) :
    pivotMaxX (knotOf p ps) = knotMaxX p ps := by
  apply le_antisymm
  · rcases foldMax_eq_seed_or_mem Prod.fst 0 (knotOf p ps).pivots with h | ⟨q, hq, h⟩
    · rw [pivotMaxX, h]
      exact knotMaxX_nonneg p ps
    · rw [pivotMaxX, h]
      exact foldMax_mem_le _ _ (((knotOf_pivots_perm p ps).mem_iff).mp hq)
  · rcases knotMaxX_attained p ps with ⟨q, hq, h⟩
    rw [h]
    exact foldMax_mem_le _ _ (((knotOf_pivots_perm p ps).mem_iff).mpr hq)

theorem mkKnot_origin_mem {l : List Pt} {k : Knot} (h : mkKnot l = .ok k) :
    ((0 : Int), (0 : Int)) ∈ k.pivots := by
  rcases mkKnot_ok_elim h with ⟨p, ps, rfl, hc, rfl⟩
  apply ((knotOf_pivots_perm p ps).mem_iff).mpr
  have : ((cornerX p ps - cornerX p ps, cornerY p ps - cornerY p ps) : Pt) ∈ normPts p ps := by
    unfold normPts shiftPts
    exact List.mem_map_of_mem _ hc
  simpa using this

theorem mkKnot_pivot_bounds {l : List Pt} {k : Knot} (h : mkKnot l = .ok k) :
    ∀ q ∈ k.pivots, 0 ≤ q.1 ∧ q.1 ≤ pivotMaxX k ∧ 0 ≤ q.2 ∧ q.2 ≤ k.ymax := by
  rcases mkKnot_ok_elim h with ⟨p, ps, rfl, hc, rfl⟩
  intro q hq
  have hqn : q ∈ normPts p ps := ((knotOf_pivots_perm p ps).mem_iff).mp hq
  refine ⟨mem_normPts_x_nonneg hqn, ?_, mem_normPts_y_nonneg hqn, ?_⟩
  · rw [knotOf_pivotMaxX]
    exact foldMax_mem_le _ _ hqn
  · exact foldMax_mem_le _ _ hqn

theorem mkKnot_xmod_even {l : List Pt} {k : Knot} (h : mkKnot l = .ok k) :
    k.xmodulus % 2 = 0 := by
  rcases mkKnot_ok_elim h with ⟨p, ps, rfl, hc, rfl⟩
  have := Int.emod_two_eq (knotMaxX p ps)
  show (knotMaxX p ps + (2 - knotMaxX p ps % 2)) % 2 = 0
  omega

theorem mkKnot_maxX_lt_xmod {l : List Pt} {k : Knot} (h : mkKnot l = .ok k) :
    pivotMaxX k < k.xmodulus := by
  rcases mkKnot_ok_elim h with ⟨p, ps, rfl, hc, rfl⟩
  rw [knotOf_pivotMaxX]
  have := Int.emod_two_eq (knotMaxX p ps)
  show knotMaxX p ps < knotMaxX p ps + (2 - knotMaxX p ps % 2)
  omega

theorem mkKnot_x_lt_xmod {l : List Pt} {k : Knot} (h : mkKnot l = .ok k) :
    ∀ q ∈ k.pivots, q.1 < k.xmodulus := by
  intro q hq
  exact lt_of_le_of_lt ((mkKnot_pivot_bounds h q hq).2.1) (mkKnot_maxX_lt_xmod h)

theorem mkKnot_xmod_pos {l : List Pt} {k : Knot} (h : mkKnot l = .ok k) :
    0 < k.xmodulus := by
  rcases mkKnot_ok_elim h with ⟨p, ps, rfl, hc, rfl⟩
  have h0 := knotMaxX_nonneg p ps
  have := Int.emod_two_eq (knotMaxX p ps)
  show 0 < knotMaxX p ps + (2 - knotMaxX p ps % 2)
  omega

theorem mkKnot_sorted {l : List Pt} {k : Knot} (h : mkKnot l = .ok k) :
    k.pivots.Pairwise (fun a b => a.2 < b.2 ∨ (a.2 = b.2 ∧ a.1 ≤ b.1)) := by
  rcases mkKnot_ok_elim h with ⟨p, ps, rfl, hc, rfl⟩
  exact List.sorted_insertionSort pivotRel (normPts p ps)

theorem mkKnot_valid_iff {l : List Pt} {k : Knot} (h : mkKnot l = .ok k) :
    k.valid = true ↔ (k.pivots.length % 2 = 0 ∧ k.xmodulus = (k.pivots.length : Int)) := by
  rcases mkKnot_ok_elim h with ⟨p, ps, rfl, hc, rfl⟩
  show (((List.insertionSort pivotRel (normPts p ps)).length % 2 == 0) && _) = true ↔ _
  simp [knotOf]

/-! ## Facts about slopebetween and pointsbetween -/

theorem pycmp_eq_zero_iff (a b : Int) : pycmp a b = 0 ↔ a = b := by
  unfold pycmp
  split
  · omega
  · split
    · omega
    · omega

theorem pycmp_of_lt {a b : Int} (h : a < b) : pycmp a b = -1 := by
  unfold pycmp
  rw [if_pos h]

theorem pycmp_of_gt {a b : Int} (h : b < a) : pycmp a b = 1 := by
  unfold pycmp
  rw [if_neg (by omega), if_pos h]

theorem slope_nonzero_y_ne {l : List Pt} {k : Knot} {p1 p2 : Pt}
    (h : mkKnot l = .ok k) (h1 : p1 ∈ k.pivots) (h2 : p2 ∈ k.pivots)
    (hne : p1 ≠ p2) (hs : k.slopebetween p1 p2 ≠ 0) : p1.2 ≠ p2.2 := by
  have b1 := mkKnot_pivot_bounds h p1 h1
  have b2 := mkKnot_pivot_bounds h p2 h2
  have hx1 : p1.1 < k.xmodulus := mkKnot_x_lt_xmod h p1 h1
  have hx2 : p2.1 < k.xmodulus := mkKnot_x_lt_xmod h p2 h2
  intro hy
  apply hs
  have hxne : p1.1 ≠ p2.1 := fun hx => hne (Prod.ext hx hy)
  have e1 : (p1.1 + p1.2) % k.xmodulus ≠ (p2.1 + p2.2) % k.xmodulus := by
    intro he
    rw [hy] at he
    have hc0 : p1.1 + p2.2 ≡ p2.1 + p2.2 [ZMOD k.xmodulus] := he
    have hc : p1.1 ≡ p2.1 [ZMOD k.xmodulus] := by
      simpa using hc0.sub_right p2.2
    have : p1.1 % k.xmodulus = p2.1 % k.xmodulus := hc
    rw [Int.emod_eq_of_lt b1.1 hx1, Int.emod_eq_of_lt b2.1 hx2] at this
    exact hxne this
  have e2 : (p1.1 - p1.2) % k.xmodulus ≠ (p2.1 - p2.2) % k.xmodulus := by
    intro he
    rw [hy] at he
    have hc0 : p1.1 - p2.2 ≡ p2.1 - p2.2 [ZMOD k.xmodulus] := he
    have hc : p1.1 ≡ p2.1 [ZMOD k.xmodulus] := by
      simpa using hc0.add_right p2.2
    have : p1.1 % k.xmodulus = p2.1 % k.xmodulus := hc
    rw [Int.emod_eq_of_lt b1.1 hx1, Int.emod_eq_of_lt b2.1 hx2] at this
    exact hxne this
  unfold Knot.slopebetween
  rw [if_neg (fun hp => e1 (congrArg Prod.fst hp)), if_neg (by simpa [plines] using e1),
    if_neg (by simpa [plines] using e2)]

theorem pointsbetweenGo_results {k : Knot} {endp : Pt} {slope direction : Int} :
    ∀ fuel x y rv, pointsbetweenGo k endp slope direction fuel x y rv = .error .horizontalLine →
      False := by
  intro fuel
  induction fuel with
  | zero =>
    intro x y rv h
    unfold pointsbetweenGo at h
    split at h
    · cases h
    · split at h
      · cases h
      · cases h
  | succ n ih =>
    intro x y rv h
    unfold pointsbetweenGo at h
    split at h
    · exact ih _ _ _ h
    · split at h
      · cases h
      · cases h

theorem pointsbetweenGo_no_fuelOut {k : Knot} {endp : Pt} {slope direction : Int}
    (hd : direction = 1 ∨ direction = -1) :
    ∀ fuel x y rv, (if direction = 1 then k.ymax - y else y).toNat < fuel →
      pointsbetweenGo k endp slope direction fuel x y rv ≠ .error .fuelOut := by
  intro fuel
  induction fuel with
  | zero =>
    intro x y rv hlt
    exact absurd hlt (Nat.not_lt_zero _)
  | succ n ih =>
    intro x y rv hlt h
    unfold pointsbetweenGo at h
    split at h
    · rename_i hcond
      obtain ⟨-, hx0, hy0, hy1⟩ := hcond
      refine ih _ _ _ ?_ h
      rcases hd with hd | hd <;> subst hd
      · rw [if_pos rfl] at hlt ⊢
        omega
      · rw [if_neg (by omega : ¬(-1 : Int) = 1)] at hlt ⊢
        omega
    · split at h
      · cases h
      · cases h

theorem pointsbetweenGo_between {k : Knot} {endp p1 : Pt} {slope direction : Int}
    (hd : direction = 1 ∨ direction = -1) :
    ∀ fuel x y rv out,
      pointsbetweenGo k endp slope direction fuel x y rv = .ok out →
      x = (p1.1 + slope * (y - p1.2)) % k.xmodulus →
      1 ≤ direction * (y - p1.2) →
      (∀ q ∈ rv, (1 ≤ direction * (q.2 - p1.2) ∧ 1 ≤ direction * (y - q.2)) ∧
        q.1 = (p1.1 + slope * (q.2 - p1.2)) % k.xmodulus) →
      ∀ q ∈ out, (1 ≤ direction * (q.2 - p1.2) ∧ 1 ≤ direction * (endp.2 - q.2)) ∧
        q.1 = (p1.1 + slope * (q.2 - p1.2)) % k.xmodulus := by
  have hstep : ∀ y' r' : Int, direction * (y' + direction - r') = direction * (y' - r') + 1 := by
    rcases hd with h | h <;> subst h <;> intro y' r' <;> ring
  intro fuel
  induction fuel with
  | zero =>
    intro x y rv out h hx hy hrv q hq
    unfold pointsbetweenGo at h
    split at h
    · cases h
    · split at h
      · cases h
      · rename_i hcond hend
        have hey : endp = (x, y) := by
          by_contra hne
          exact hend hne
        have hout : rv.reverse = out := Except.ok.inj h
        rw [← hout] at hq
        obtain ⟨hq1, hq2⟩ := hrv q (List.mem_reverse.mp hq)
        refine ⟨⟨hq1.1, ?_⟩, hq2⟩
        rw [hey]
        exact hq1.2
  | succ n ih =>
    intro x y rv out h hx hy hrv q hq
    unfold pointsbetweenGo at h
    split at h
    · rename_i hcond
      refine ih _ _ _ _ h ?_ ?_ ?_ q hq
      · rw [hx, Int.emod_add_emod]
        congr 1
        ring
      · have := hstep y p1.2
        omega
      · intro r hr
        rcases List.mem_cons.mp hr with hr | hr
        · subst hr
          refine ⟨⟨hy, ?_⟩, hx⟩
          show 1 ≤ direction * (y + direction - y)
          have h1 := hstep y y
          have h2 : direction * (y - y) = 0 := by ring
          omega
        · obtain ⟨⟨ha, hb⟩, hc⟩ := hrv r hr
          refine ⟨⟨ha, ?_⟩, hc⟩
          have := hstep y r.2
          omega
    · split at h
      · cases h
      · rename_i hcond hend
        have hey : endp = (x, y) := by
          by_contra hne
          exact hend hne
        have hout : rv.reverse = out := Except.ok.inj h
        rw [← hout] at hq
        obtain ⟨hq1, hq2⟩ := hrv q (List.mem_reverse.mp hq)
        refine ⟨⟨hq1.1, ?_⟩, hq2⟩
        rw [hey]
        exact hq1.2

theorem pointsbetween_eq_go {k : Knot} {p1 p2 : Pt} (hs : k.slopebetween p1 p2 ≠ 0)
    (hy : p1.2 ≠ p2.2) :
    k.pointsbetween p1 p2 = pointsbetweenGo k p2 (k.slopebetween p1 p2)
      (-(pycmp p1.2 p2.2)) (k.ymax.natAbs + 2)
      ((p1.1 + k.slopebetween p1 p2 * (-(pycmp p1.2 p2.2))) % k.xmodulus)
      (p1.2 + (-(pycmp p1.2 p2.2))) [] := by
  unfold Knot.pointsbetween
  rw [if_neg hs, if_neg]
  intro h0
  exact hy ((pycmp_eq_zero_iff _ _).mp (by omega))

/-! ## The circuit walk: line symmetry and the state iteration -/

theorem mem_of_mem_line {k : Knot} {p q : Pt} {d : Int} (h : q ∈ k.line p d) :
    q ∈ k.pivots :=
  List.mem_of_mem_filter (List.mem_of_mem_erase h)

theorem icept_eq_of_mem_line {k : Knot} {p q : Pt} {d : Int} (h : q ∈ k.line p d) :
    icept k.xmodulus d p = icept k.xmodulus d q := by
  have := List.of_mem_filter (List.mem_of_mem_erase h)
  exact eq_of_beq this

theorem self_mem_line_filter {k : Knot} {p : Pt} {d : Int} (hp : p ∈ k.pivots) :
    p ∈ k.pivots.filter (fun r => icept k.xmodulus d p == icept k.xmodulus d r) :=
  List.mem_filter.mpr ⟨hp, beq_self_eq_true _⟩

theorem perm_cons_erase_beq {α : Type} [BEq α] [LawfulBEq α] {a : α} {l : List α}
    (h : a ∈ l) : l.Perm (a :: l.erase a) := by
  induction l with
  | nil => cases h
  | cons b l ih =>
    by_cases hba : b = a
    · subst hba
      rw [List.erase_cons_head]
    · rw [List.erase_cons_tail (by simp [hba])]
      rcases List.mem_cons.mp h with h1 | h1
      · exact absurd h1.symm hba
      · exact ((ih h1).cons b).trans (List.Perm.swap _ _ _)

theorem line_filter_perm {k : Knot} {p q : Pt} {d : Int}
    (hp : p ∈ k.pivots) (h : k.line p d = [q]) :
    (k.pivots.filter (fun r => icept k.xmodulus d p == icept k.xmodulus d r)).Perm [p, q] := by
  have h1 := perm_cons_erase_beq (self_mem_line_filter (d := d) hp)
  have h2 : (k.pivots.filter
      (fun r => icept k.xmodulus d p == icept k.xmodulus d r)).erase p = [q] := h
  rw [h2] at h1
  exact h1

theorem line_singleton_symm {k : Knot} {p q : Pt} {d : Int}
    (hp : p ∈ k.pivots) (h : k.line p d = [q]) : k.line q d = [p] := by
  have hq_line : q ∈ k.line p d := by
    rw [h]
    exact List.mem_singleton_self _
  have hic := icept_eq_of_mem_line hq_line
  have hF := line_filter_perm hp h
  have hFq : k.pivots.filter (fun r => icept k.xmodulus d q == icept k.xmodulus d r)
      = k.pivots.filter (fun r => icept k.xmodulus d p == icept k.xmodulus d r) := by
    apply List.filter_congr
    intro x hx
    rw [hic]
  have hqF : q ∈ k.pivots.filter
      (fun r => icept k.xmodulus d p == icept k.xmodulus d r) :=
    List.mem_of_mem_erase hq_line
  show (k.pivots.filter _).erase q = [p]
  rw [hFq]
  have h1 := perm_cons_erase_beq hqF
  have h2 := (h1.symm.trans (hF.trans (List.Perm.swap q p []))).cons_inv
  exact List.perm_singleton.mp h2

theorem line_singleton_inj {k : Knot} {p p' q : Pt} {d : Int}
    (hp : p ∈ k.pivots) (hp' : p' ∈ k.pivots)
    (h : k.line p d = [q]) (h' : k.line p' d = [q]) : p = p' := by
  have e1 := line_singleton_symm hp h
  have e2 := line_singleton_symm hp' h'
  rw [e1] at e2
  injection e2

theorem line_singleton_count_tgt {k : Knot} {p q : Pt} {d : Int}
    (hp : p ∈ k.pivots) (h : k.line p d = [q]) (hc : 2 ≤ k.pivots.count q) : p = q := by
  have hq_line : q ∈ k.line p d := by
    rw [h]
    exact List.mem_singleton_self _
  have hqF := List.mem_of_mem_erase hq_line
  have hpred := List.of_mem_filter hqF
  have hF := line_filter_perm hp h
  have hcount : (k.pivots.filter
      (fun r => icept k.xmodulus d p == icept k.xmodulus d r)).count q = k.pivots.count q :=
    List.count_filter hpred
  have h2 : (k.pivots.filter
      (fun r => icept k.xmodulus d p == icept k.xmodulus d r)).count q
      = List.count q [p, q] := hF.countP_eq _
  rw [hcount] at h2
  by_cases hpq : p = q
  · exact hpq
  · exfalso
    have : List.count q [p, q] = 1 := by
      simp [List.count_cons, hpq]
    omega

theorem line_singleton_count_src {k : Knot} {p q : Pt} {d : Int}
    (hp : p ∈ k.pivots) (h : k.line p d = [q]) (hc : 2 ≤ k.pivots.count p) : q = p := by
  have hF := line_filter_perm hp h
  have hcount : (k.pivots.filter
      (fun r => icept k.xmodulus d p == icept k.xmodulus d r)).count p = k.pivots.count p :=
    List.count_filter (beq_self_eq_true _)
  have h2 : (k.pivots.filter
      (fun r => icept k.xmodulus d p == icept k.xmodulus d r)).count p
      = List.count p [p, q] := hF.countP_eq _
  rw [hcount] at h2
  by_cases hqp : q = p
  · exact hqp
  · exfalso
    have : List.count p [p, q] = 1 := by
      simp [List.count_cons, hqp]
    omega

theorem stepFn_eq_some {k : Knot} {p q : Pt} {d : Int} :
    stepFn k p d = some q ↔ k.line p d = [q] := by
  unfold stepFn
  split
  · rename_i q' heq
    constructor
    · intro hh
      injection hh with hh
      rw [heq, hh]
    · intro hh
      rw [heq] at hh
      injection hh with hh
      rw [hh]
  · rename_i hno
    constructor
    · intro hh
      cases hh
    · intro hh
      exact absurd hh (hno q)

theorem iterSt_zero (k : Knot) (s : Pt) : iterSt k s 0 = some (s, 1) := rfl

theorem iterSt_succ (k : Knot) (s : Pt) (t : Nat) :
    iterSt k s (t + 1)
      = (iterSt k s t).bind (fun st => (stepFn k st.1 st.2).map (fun q => (q, -st.2))) := rfl

theorem pAt_zero (k : Knot) (s : Pt) : pAt k s 0 = s := rfl

theorem pAt_of_eq {k : Knot} {s p : Pt} {t : Nat} {d : Int}
    (h : iterSt k s t = some (p, d)) : pAt k s t = p := by
  unfold pAt
  rw [h]
  rfl

theorem dAt_zero : dAt 0 = 1 := rfl

theorem dAt_succ (t : Nat) : dAt (t + 1) = -dAt t := by
  unfold dAt
  split
  · split
    · omega
    · omega
  · split
    · omega
    · omega

theorem dAt_cases (t : Nat) : dAt t = 1 ∨ dAt t = -1 := by
  unfold dAt
  split
  · exact Or.inl rfl
  · exact Or.inr rfl

theorem dAt_eq_iff (a b : Nat) : dAt a = dAt b ↔ a % 2 = b % 2 := by
  unfold dAt
  split
  · split
    · omega
    · omega
  · split
    · omega
    · omega

theorem iterSt_dir {k : Knot} {s p : Pt} {d : Int} :
    ∀ {t : Nat}, iterSt k s t = some (p, d) → d = dAt t := by
  intro t
  induction t generalizing p d with
  | zero =>
    intro h
    rw [iterSt_zero] at h
    injection h with h
    cases h
    rfl
  | succ t ih =>
    intro h
    rw [iterSt_succ] at h
    rcases Option.bind_eq_some.mp h with ⟨⟨p', d'⟩, hit, hmap⟩
    rcases Option.map_eq_some'.mp hmap with ⟨q, hq, hqe⟩
    have hd' := ih hit
    injection hqe with hqe1 hqe2
    rw [dAt_succ, ← hd', hqe2]

theorem iterSt_isSome_mono {k : Knot} {s : Pt} :
    ∀ {t u : Nat}, u ≤ t → (iterSt k s t).isSome → (iterSt k s u).isSome := by
  intro t
  induction t with
  | zero =>
    intro u hu h
    rw [Nat.le_zero.mp hu]
    exact h
  | succ t ih =>
    intro u hu h
    by_cases heq : u = t + 1
    · rw [heq]
      exact h
    · have hle : u ≤ t := by omega
      refine ih hle ?_
      rw [iterSt_succ] at h
      cases hx : iterSt k s t with
      | none =>
        rw [hx] at h
        simp at h
      | some st => rfl

theorem line_at_of_isSome {k : Knot} {s : Pt} {t : Nat}
    (h : (iterSt k s (t + 1)).isSome) :
    k.line (pAt k s t) (dAt t) = [pAt k s (t + 1)] := by
  rcases Option.isSome_iff_exists.mp h with ⟨a, ha⟩
  have ha0 := ha
  rw [iterSt_succ] at ha
  rcases Option.bind_eq_some.mp ha with ⟨⟨p', d'⟩, hit, hmap⟩
  rcases Option.map_eq_some'.mp hmap with ⟨q, hq, hqe⟩
  have h1 : pAt k s t = p' := pAt_of_eq hit
  have h2 : d' = dAt t := iterSt_dir hit
  have h3 : pAt k s (t + 1) = q := by
    apply pAt_of_eq (d := -d')
    rw [ha0, ← hqe]
  rw [h1, h3, ← h2]
  exact stepFn_eq_some.mp hq

theorem pAt_mem {k : Knot} {s : Pt} (hs : s ∈ k.pivots) :
    ∀ {t : Nat}, (iterSt k s t).isSome → pAt k s t ∈ k.pivots := by
  intro t
  induction t with
  | zero =>
    intro _
    rw [pAt_zero]
    exact hs
  | succ t ih =>
    intro h
    have hline := line_at_of_isSome h
    refine mem_of_mem_line (p := pAt k s t) (d := dAt t) ?_
    rw [hline]
    exact List.mem_singleton_self _

/-! ## Correspondence between circuitGo and the state iteration -/

theorem circuitGo_ok_run {k : Knot} {s : Pt} :
    ∀ {n t : Nat} {p : Pt} {d : Int} {rv out : List Pt},
      circuitGo k s n p d rv = .ok out →
      iterSt k s t = some (p, d) →
      rv = ((List.range t).map (pAt k s)).reverse →
      (∀ u, 0 < u → u < t → pAt k s u ≠ s) →
      ∃ T, t ≤ T ∧ out = (List.range T).map (pAt k s) ∧ CircRun k s T := by
  intro n
  induction n with
  | zero =>
    intro t p d rv out h hit hrv hmid
    unfold circuitGo at h
    split at h
    · rename_i hstop
      obtain ⟨hps, hrvne⟩ := hstop
      have hout : rv.reverse = out := Except.ok.inj h
      have ht0 : 0 < t := by
        by_contra h0
        have ht : t = 0 := by omega
        subst ht
        apply hrvne
        rw [hrv]
        rfl
      refine ⟨t, le_refl _, ?_, ht0, ?_, ?_, hmid⟩
      · rw [← hout, hrv, List.reverse_reverse]
      · intro u hu
        exact iterSt_isSome_mono hu (by rw [hit]; rfl)
      · rw [pAt_of_eq hit]
        exact hps
    · cases h
  | succ n ih =>
    intro t p d rv out h hit hrv hmid
    unfold circuitGo at h
    split at h
    · rename_i hstop
      obtain ⟨hps, hrvne⟩ := hstop
      have hout : rv.reverse = out := Except.ok.inj h
      have ht0 : 0 < t := by
        by_contra h0
        have ht : t = 0 := by omega
        subst ht
        apply hrvne
        rw [hrv]
        rfl
      refine ⟨t, le_refl _, ?_, ht0, ?_, ?_, hmid⟩
      · rw [← hout, hrv, List.reverse_reverse]
      · intro u hu
        exact iterSt_isSome_mono hu (by rw [hit]; rfl)
      · rw [pAt_of_eq hit]
        exact hps
    · rename_i hnostop
      split at h
      · rename_i q hline
        have hstep : iterSt k s (t + 1) = some (q, -d) := by
          rw [iterSt_succ, hit]
          simp [stepFn_eq_some.mpr hline]
        have hrv' : p :: rv = ((List.range (t + 1)).map (pAt k s)).reverse := by
          rw [List.range_succ, List.map_append, List.reverse_append]
          simp [pAt_of_eq hit, hrv]
        have hmid' : ∀ u, 0 < u → u < t + 1 → pAt k s u ≠ s := by
          intro u hu hut
          by_cases hut' : u < t
          · exact hmid u hu hut'
          · have hut2 : u = t := by omega
            subst hut2
            intro hps
            apply hnostop
            refine ⟨by rw [← pAt_of_eq hit]; exact hps, ?_⟩
            rw [hrv]
            intro hc
            have h1 := List.reverse_eq_nil_iff.mp hc
            rw [List.map_eq_nil_iff, List.range_eq_nil] at h1
            omega
        obtain ⟨T, hT, hout, hrun⟩ := ih h hstep hrv' hmid'
        exact ⟨T, by omega, hout, hrun⟩
      · cases h

theorem circuitGo_fuelOut_run {k : Knot} {s : Pt} :
    ∀ {n t : Nat} {p : Pt} {d : Int} {rv : List Pt},
      circuitGo k s n p d rv = .error .fuelOut →
      iterSt k s t = some (p, d) →
      rv = ((List.range t).map (pAt k s)).reverse →
      (∀ u, 0 < u → u < t → pAt k s u ≠ s) →
      (∀ u, u ≤ t + n → (iterSt k s u).isSome) ∧
        (∀ u, 0 < u → u ≤ t + n → pAt k s u ≠ s) := by
  intro n
  induction n with
  | zero =>
    intro t p d rv h hit hrv hmid
    unfold circuitGo at h
    split at h
    · cases h
    · rename_i hnostop
      constructor
      · intro u hu
        have hsome : (iterSt k s t).isSome := by
          rw [hit]
          rfl
        exact iterSt_isSome_mono (by omega) hsome
      · intro u hu hut
        by_cases h' : u < t
        · exact hmid u hu h'
        · have hut2 : u = t := by omega
          subst hut2
          intro hps
          apply hnostop
          refine ⟨by rw [← pAt_of_eq hit]; exact hps, ?_⟩
          rw [hrv]
          intro hc
          have h1 := List.reverse_eq_nil_iff.mp hc
          rw [List.map_eq_nil_iff, List.range_eq_nil] at h1
          omega
  | succ n ih =>
    intro t p d rv h hit hrv hmid
    unfold circuitGo at h
    split at h
    · cases h
    · rename_i hnostop
      split at h
      · rename_i q hline
        have hstep : iterSt k s (t + 1) = some (q, -d) := by
          rw [iterSt_succ, hit]
          simp [stepFn_eq_some.mpr hline]
        have hrv' : p :: rv = ((List.range (t + 1)).map (pAt k s)).reverse := by
          rw [List.range_succ, List.map_append, List.reverse_append]
          simp [pAt_of_eq hit, hrv]
        have hmid' : ∀ u, 0 < u → u < t + 1 → pAt k s u ≠ s := by
          intro u hu hut
          by_cases hut' : u < t
          · exact hmid u hu hut'
          · have hut2 : u = t := by omega
            subst hut2
            intro hps
            apply hnostop
            refine ⟨by rw [← pAt_of_eq hit]; exact hps, ?_⟩
            rw [hrv]
            intro hc
            have h1 := List.reverse_eq_nil_iff.mp hc
            rw [List.map_eq_nil_iff, List.range_eq_nil] at h1
            omega
        obtain ⟨hA, hB⟩ := ih h hstep hrv' hmid'
        exact ⟨fun u hu => hA u (by omega), fun u hu hut => hB u hu (by omega)⟩
      · simp at h

theorem circuitGo_of_run {k : Knot} {s : Pt} {T : Nat} (hrun : CircRun k s T) :
    ∀ n t, t ≤ T → T - t < n →
      circuitGo k s n (pAt k s t) (dAt t) (((List.range t).map (pAt k s)).reverse)
        = .ok ((List.range T).map (pAt k s)) := by
  intro n
  induction n with
  | zero =>
    intro t ht hn
    omega
  | succ n ih =>
    intro t ht hn
    by_cases hT : t = T
    · rw [hT]
      have hne : (((List.range T).map (pAt k s)).reverse) ≠ [] := by
        intro hc
        have h1 := List.reverse_eq_nil_iff.mp hc
        rw [List.map_eq_nil_iff, List.range_eq_nil] at h1
        have := hrun.pos
        omega
      unfold circuitGo
      rw [if_pos ⟨hrun.closes, hne⟩, List.reverse_reverse]
    · have htT : t < T := by omega
      have hline := line_at_of_isSome (hrun.somes (t + 1) (by omega))
      have hcond : ¬(pAt k s t = s ∧ (((List.range t).map (pAt k s)).reverse) ≠ []) := by
        rcases Nat.eq_zero_or_pos t with h0 | h0
        · subst h0
          intro hc
          exact hc.2 rfl
        · intro hc
          exact hrun.mids t h0 htT hc.1
      unfold circuitGo
      rw [if_neg hcond, hline]
      show circuitGo k s n (pAt k s (t + 1)) (-dAt t)
        (pAt k s t :: ((List.range t).map (pAt k s)).reverse) = _
      rw [← dAt_succ]
      have hsh : pAt k s t :: ((List.range t).map (pAt k s)).reverse
          = ((List.range (t + 1)).map (pAt k s)).reverse := by
        rw [List.range_succ, List.map_append, List.reverse_append]
        rfl
      rw [hsh]
      exact ih (t + 1) (by omega) (by omega)

theorem circuit_ok_run {k : Knot} {s : Pt} {out : List Pt} (h : k.circuit s = .ok out) :
    s ∈ k.pivots ∧ ∃ T, out = (List.range T).map (pAt k s) ∧ CircRun k s T := by
  unfold Knot.circuit at h
  split at h
  · rename_i hs
    obtain ⟨T, -, hout, hrun⟩ :=
      circuitGo_ok_run h (iterSt_zero k s) rfl (fun u hu hut => by omega)
    exact ⟨hs, T, hout, hrun⟩
  · cases h

theorem circuit_of_run {k : Knot} {s : Pt} {T : Nat} (hs : s ∈ k.pivots)
    (hrun : CircRun k s T) (hT : T ≤ 2 * k.pivots.length + 1) :
    k.circuit s = .ok ((List.range T).map (pAt k s)) := by
  unfold Knot.circuit
  rw [if_pos hs]
  have h := circuitGo_of_run hrun (2 * k.pivots.length + 2) 0 (by omega) (by omega)
  exact h

/-! ## Distinctness of walk states, fuel sufficiency, error classes -/

theorem desc_step {k : Knot} {s : Pt} (hs : s ∈ k.pivots) {a b : Nat}
    (ha : (iterSt k s a).isSome) (hb : (iterSt k s b).isSome)
    (ha1 : 1 ≤ a) (hb1 : 1 ≤ b)
    (hp : pAt k s a = pAt k s b) (hd : dAt a = dAt b) :
    pAt k s (a - 1) = pAt k s (b - 1) := by
  obtain ⟨a', rfl⟩ : ∃ a', a = a' + 1 := ⟨a - 1, by omega⟩
  obtain ⟨b', rfl⟩ : ∃ b', b = b' + 1 := ⟨b - 1, by omega⟩
  have e1 := line_at_of_isSome ha
  have e2 := line_at_of_isSome hb
  have hd' : dAt a' = dAt b' := by
    rw [dAt_eq_iff] at hd ⊢
    omega
  rw [← hp, ← hd'] at e2
  have hma : pAt k s a' ∈ k.pivots :=
    pAt_mem hs (iterSt_isSome_mono (Nat.le_succ _) ha)
  have hmb : pAt k s b' ∈ k.pivots :=
    pAt_mem hs (iterSt_isSome_mono (Nat.le_succ _) hb)
  simpa using line_singleton_inj hma hmb e1 e2

theorem run_state_inj {k : Knot} {s : Pt} (hs : s ∈ k.pivots) {L : Nat}
    (hsomes : ∀ u, u ≤ L → (iterSt k s u).isSome)
    (hmids : ∀ u, 0 < u → u < L → pAt k s u ≠ s) :
    ∀ a b, a ≤ b → b ≤ L → pAt k s a = pAt k s b → dAt a = dAt b →
      a = b ∨ (a = 0 ∧ pAt k s b = s) := by
  intro a
  induction a with
  | zero =>
    intro b hab hbL hp hd
    rcases Nat.eq_zero_or_pos b with h0 | h0
    · exact Or.inl h0.symm
    · right
      exact ⟨rfl, by rw [← hp, pAt_zero]⟩
  | succ a ih =>
    intro b hab hbL hp hd
    by_cases heq : a + 1 = b
    · exact Or.inl heq
    · have hlt : a + 1 < b := by omega
      have hb1 : 1 ≤ b := by omega
      have hstep := desc_step hs (hsomes _ (by omega)) (hsomes _ hbL)
        (by omega) hb1 hp hd
      have hd2 : dAt a = dAt (b - 1) := by
        rw [dAt_eq_iff] at hd ⊢
        omega
      have hih := ih (b - 1) (by omega) (by omega) (by simpa using hstep) hd2
      rcases hih with h1 | ⟨h1, h2⟩
      · exfalso
        omega
      · exfalso
        have hb2 : 0 < b - 1 := by omega
        exact hmids (b - 1) hb2 (by omega) h2

theorem circuitGo_no_fuelOut {k : Knot} {s : Pt} (hs : s ∈ k.pivots) :
    circuitGo k s (2 * k.pivots.length + 2) s 1 [] ≠ .error .fuelOut := by
  intro h
  obtain ⟨hsomes, hmids⟩ := circuitGo_fuelOut_run h (iterSt_zero k s) rfl
    (fun u hu hut => absurd hut (by omega))
  have hsomes' : ∀ u, u ≤ 2 * k.pivots.length + 2 → (iterSt k s u).isSome :=
    fun u hu => hsomes u (by omega)
  have hmids' : ∀ u, 0 < u → u ≤ 2 * k.pivots.length + 2 → pAt k s u ≠ s :=
    fun u hu hut => hmids u hu (by omega)
  have hinj : Set.InjOn (fun u => (pAt k s u, dAt u))
      ((Finset.range (2 * k.pivots.length + 3) : Finset Nat) : Set Nat) := by
    intro a ha b hb hab
    simp only [Finset.coe_range, Set.mem_Iio] at ha hb
    have hab' : (pAt k s a, dAt a) = (pAt k s b, dAt b) := hab
    injection hab' with hpa hda
    rcases le_total a b with hle | hle
    · rcases run_state_inj hs hsomes' (fun u h1 h2 => hmids' u h1 (by omega))
        a b hle (by omega) hpa hda with h1 | ⟨h1, h2⟩
      · exact h1
      · rcases Nat.eq_zero_or_pos b with h0 | h0
        · omega
        · exact absurd h2 (hmids' b h0 (by omega))
    · rcases run_state_inj hs hsomes' (fun u h1 h2 => hmids' u h1 (by omega))
        b a hle (by omega) hpa.symm hda.symm with h1 | ⟨h1, h2⟩
      · exact h1.symm
      · rcases Nat.eq_zero_or_pos a with h0 | h0
        · omega
        · exact absurd h2 (hmids' a h0 (by omega))
  have hmaps : ∀ u ∈ Finset.range (2 * k.pivots.length + 3),
      (fun u => (pAt k s u, dAt u)) u ∈ k.pivots.toFinset ×ˢ ({1, -1} : Finset Int) := by
    intro u hu
    rw [Finset.mem_range] at hu
    rw [Finset.mem_product]
    constructor
    · rw [List.mem_toFinset]
      exact pAt_mem hs (hsomes' u (by omega))
    · rcases dAt_cases u with h1 | h1 <;> simp [h1]
  have hcard := Finset.card_le_card_of_injOn _ hmaps hinj
  rw [Finset.card_range, Finset.card_product] at hcard
  have h1 : k.pivots.toFinset.card ≤ k.pivots.length := List.toFinset_card_le _
  have h2 : ({1, -1} : Finset Int).card ≤ 2 :=
    (Finset.card_insert_le _ _).trans (by simp)
  have h3 : k.pivots.toFinset.card * ({1, -1} : Finset Int).card ≤ k.pivots.length * 2 :=
    Nat.mul_le_mul h1 h2
  omega

theorem circuitGo_error_classes {k : Knot} {s : Pt} :
    ∀ {n : Nat} {p : Pt} {d : Int} {rv : List Pt} {e : KErr},
      circuitGo k s n p d rv = .error e → e = .notTyable ∨ e = .fuelOut := by
  intro n
  induction n with
  | zero =>
    intro p d rv e h
    unfold circuitGo at h
    split at h
    · cases h
    · injection h with h
      exact Or.inr h.symm
  | succ n ih =>
    intro p d rv e h
    unfold circuitGo at h
    split at h
    · cases h
    · split at h
      · exact ih h
      · injection h with h
        exact Or.inl h.symm

theorem circuit_error_classes {k : Knot} {s : Pt} {e : KErr}
    (h : k.circuit s = .error e) : e = .notTyable ∨ e = .startNotPivot := by
  unfold Knot.circuit at h
  split at h
  · rename_i hs
    rcases circuitGo_error_classes h with h1 | h1
    · exact Or.inl h1
    · subst h1
      exact absurd h (circuitGo_no_fuelOut hs)
  · injection h with h
    exact Or.inr h.symm

/-! ## Closure and single-visit facts for a successful circuit -/

theorem line_self_dup {k : Knot} {p : Pt} {d : Int}
    (hp : p ∈ k.pivots) (h : k.line p d = [p]) : 2 ≤ k.pivots.count p := by
  have hF := line_filter_perm hp h
  have hc : (k.pivots.filter
      (fun r => icept k.xmodulus d p == icept k.xmodulus d r)).count p
      = List.count p [p, p] := hF.countP_eq _
  have hcount : (k.pivots.filter
      (fun r => icept k.xmodulus d p == icept k.xmodulus d r)).count p = k.pivots.count p :=
    List.count_filter (beq_self_eq_true _)
  have h2 : List.count p [p, p] = 2 := by simp
  omega

theorem dup_descent {k : Knot} {s : Pt} (hs : s ∈ k.pivots) {c : Pt}
    (hdup : 2 ≤ k.pivots.count c) {t : Nat}
    (hsome : (iterSt k s (t + 1)).isSome) (hpc : pAt k s (t + 1) = c) :
    pAt k s t = c := by
  have e := line_at_of_isSome hsome
  rw [hpc] at e
  exact line_singleton_count_tgt (pAt_mem hs (iterSt_isSome_mono (Nat.le_succ _) hsome))
    e hdup

theorem run_no_opp_parity {k : Knot} {s : Pt} {T : Nat} (hs : s ∈ k.pivots)
    (hrun : CircRun k s T) (hTe : T % 2 = 0) :
    ∀ a b, 1 ≤ a → a < b → b ≤ T - 1 → pAt k s a = pAt k s b →
      dAt a ≠ dAt b → False := by
  intro a
  induction a using Nat.strong_induction_on with
  | _ a ih =>
    intro b ha1 hab hbT hp hd
    have hT2 : 2 ≤ T := by omega
    obtain ⟨a', rfl⟩ : ∃ a', a = a' + 1 := ⟨a - 1, by omega⟩
    have e_arr := line_at_of_isSome (hrun.somes (a' + 1) (by omega))
    have e_dep := line_at_of_isSome (hrun.somes (b + 1) (by omega))
    have e_arr' := line_singleton_symm (pAt_mem hs (hrun.somes a' (by omega))) e_arr
    have hd' : dAt a' = dAt b := by
      have h1 : ¬ ((a' + 1) % 2 = b % 2) := fun hc => hd ((dAt_eq_iff _ _).mpr hc)
      rw [dAt_eq_iff]
      omega
    rw [hp, hd'] at e_arr'
    rw [e_dep] at e_arr'
    have hnew : pAt k s (b + 1) = pAt k s a' := by
      injection e_arr'
    by_cases ha0 : a' = 0
    · subst ha0
      have hbe : b % 2 = 0 := by
        have h1 : ¬ ((0 + 1) % 2 = b % 2) := fun hc => hd ((dAt_eq_iff _ _).mpr hc)
        omega
      by_cases hbT2 : b + 1 = T
      · omega
      · refine hrun.mids (b + 1) (by omega) (by omega) ?_
        rw [hnew, pAt_zero]
    · by_cases hbT2 : b + 1 = T
      · rw [hbT2, hrun.closes] at hnew
        exact hrun.mids a' (by omega) (by omega) hnew.symm
      · refine ih a' (by omega) (b + 1) (by omega) (by omega) (by omega) hnew.symm ?_
        intro hc
        rw [dAt_eq_iff] at hc
        have h1 : a' % 2 = b % 2 := (dAt_eq_iff _ _).mp hd'
        omega

theorem run_T_parity {k : Knot} {s : Pt} {T : Nat} (hs : s ∈ k.pivots)
    (hrun : CircRun k s T) : T = 1 ∨ T % 2 = 0 := by
  by_contra hc
  push_neg at hc
  obtain ⟨hT1, hTodd⟩ := hc
  have hTo : T % 2 = 1 := by omega
  have hT3 : 3 ≤ T := by
    have := hrun.pos
    omega
  obtain ⟨m, rfl⟩ : ∃ m, T = 2 * m + 1 := ⟨T / 2, by omega⟩
  have hm1 : 1 ≤ m := by omega
  have hsq : ∀ j, 1 ≤ j → 2 * j + 1 ≤ 2 * m + 1 → pAt k s j = pAt k s (2 * m + 1 - j) := by
    intro j
    induction j with
    | zero =>
      intro h1 h2
      omega
    | succ j ihj =>
      intro h1 h2
      rcases Nat.eq_zero_or_pos j with hj0 | hj0
      · subst hj0
        have e_dep := line_at_of_isSome (hrun.somes 1 (by omega))
        have e_arr := line_at_of_isSome (hrun.somes (2 * m + 1) (by omega)
          : (iterSt k s (2 * m + 1)).isSome)
        have eidx : 2 * m + 1 = (2 * m) + 1 := rfl
        rw [hrun.closes] at e_arr
        have e_sym := line_singleton_symm
          (pAt_mem hs (hrun.somes (2 * m) (by omega))) e_arr
        have hdd : dAt (2 * m) = dAt 0 := (dAt_eq_iff _ _).mpr (by omega)
        rw [hdd] at e_sym
        rw [pAt_zero] at e_dep
        rw [e_dep] at e_sym
        have hinj : pAt k s 1 = pAt k s (2 * m) := by injection e_sym
        have hi2 : 2 * m + 1 - (0 + 1) = 2 * m := by omega
        rw [hi2]
        exact hinj
      · have hprev := ihj hj0 (by omega)
        have e_dep := line_at_of_isSome (hrun.somes (j + 1) (by omega))
        have e_arr := line_at_of_isSome (hrun.somes (2 * m - j + 1) (by omega))
        have hi1 : 2 * m - j + 1 = 2 * m + 1 - j := by omega
        rw [hi1] at e_arr
        have e_sym := line_singleton_symm
          (pAt_mem hs (hrun.somes (2 * m - j) (by omega))) e_arr
        rw [← hprev] at e_sym
        have hdd : dAt (2 * m - j) = dAt j := (dAt_eq_iff _ _).mpr (by omega)
        rw [hdd] at e_sym
        rw [e_dep] at e_sym
        have hinj : pAt k s (j + 1) = pAt k s (2 * m - j) := by injection e_sym
        have hi2 : 2 * m + 1 - (j + 1) = 2 * m - j := by omega
        rw [hi2]
        exact hinj
  have hmid := hsq m hm1 (by omega)
  have hi3 : 2 * m + 1 - m = m + 1 := by omega
  rw [hi3] at hmid
  have e_dep := line_at_of_isSome (hrun.somes (m + 1) (by omega))
  rw [← hmid] at e_dep
  have hdup := line_self_dup (pAt_mem hs (hrun.somes m (by omega))) e_dep
  have hall : ∀ i, i ≤ m → pAt k s (m - i) = pAt k s m := by
    intro i
    induction i with
    | zero =>
      intro h1
      rfl
    | succ i ihi =>
      intro h1
      have hprev := ihi (by omega)
      have hge : m - i = (m - (i + 1)) + 1 := by omega
      rw [hge] at hprev
      have hres := dup_descent hs hdup
        (hrun.somes ((m - (i + 1)) + 1) (by omega)) hprev
      exact hres
  have h0 := hall m (le_refl _)
  have h1 := hall (m - 1) (by omega)
  have hidx1 : m - m = 0 := by omega
  have hidx2 : m - (m - 1) = 1 := by omega
  rw [hidx1, pAt_zero] at h0
  rw [hidx2] at h1
  refine hrun.mids 1 (by omega) (by omega) ?_
  rw [h1, ← h0]

theorem run_closed {k : Knot} {s : Pt} {T : Nat} (hs : s ∈ k.pivots)
    (hrun : CircRun k s T) :
    ∀ i, i < T → ∀ e x, (e = 1 ∨ e = -1) → k.line (pAt k s i) e = [x] →
      ∃ j, j < T ∧ pAt k s j = x := by
  obtain ⟨T', rfl⟩ : ∃ T', T = T' + 1 := ⟨T - 1, by
    have := hrun.pos
    omega⟩
  intro i hiT e x he hline
  rcases Nat.eq_zero_or_pos i with hi0 | hi0
  · subst hi0
    rcases run_T_parity hs hrun with hT1 | hTe
    · have hT0 : T' = 0 := by omega
      subst hT0
      have e_dep := line_at_of_isSome (hrun.somes 1 (le_refl _))
      have hp1 : pAt k s 1 = s := hrun.closes
      rw [pAt_zero, hp1, dAt_zero] at e_dep
      have hdup := line_self_dup hs e_dep
      rcases he with he1 | he1
      · subst he1
        rw [pAt_zero, e_dep] at hline
        have hsx : s = x := by injection hline
        exact ⟨0, by omega, by rw [pAt_zero, hsx]⟩
      · subst he1
        rw [pAt_zero] at hline
        have hxs := line_singleton_count_src hs hline hdup
        exact ⟨0, by omega, by rw [pAt_zero, ← hxs]⟩
    · have hT2 : 1 ≤ T' := by omega
      have e_dep := line_at_of_isSome (hrun.somes 1 (by omega))
      have e_arr := line_at_of_isSome (hrun.somes (T' + 1) (le_refl _))
      rw [hrun.closes] at e_arr
      have e_sym := line_singleton_symm
        (pAt_mem hs (hrun.somes T' (by omega))) e_arr
      have hdT : dAt T' = -1 := by
        have h1 : dAt T' = dAt 1 := (dAt_eq_iff _ _).mpr (by omega)
        rw [h1]
        rfl
      rw [hdT] at e_sym
      rcases he with he1 | he1
      · subst he1
        rw [pAt_zero] at hline
        rw [pAt_zero, dAt_zero] at e_dep
        rw [e_dep] at hline
        have hx : pAt k s 1 = x := by injection hline
        exact ⟨1, by omega, hx⟩
      · subst he1
        rw [pAt_zero] at hline
        rw [e_sym] at hline
        have hx : pAt k s T' = x := by injection hline
        exact ⟨T', by omega, hx⟩
  · obtain ⟨i', rfl⟩ : ∃ i', i = i' + 1 := ⟨i - 1, by omega⟩
    have e_dep := line_at_of_isSome (hrun.somes (i' + 1 + 1) (by omega))
    have e_arr := line_at_of_isSome (hrun.somes (i' + 1) (by omega))
    have e_sym := line_singleton_symm
      (pAt_mem hs (hrun.somes i' (by omega))) e_arr
    have hsplit : e = dAt (i' + 1) ∨ e = dAt i' := by
      have h1 : dAt (i' + 1) = -dAt i' := dAt_succ i'
      rcases dAt_cases i' with h2 | h2 <;> rcases he with he1 | he1 <;>
        simp [h1, h2, he1]
    rcases hsplit with hdd | hdd
    · rw [hdd, e_dep] at hline
      have hx : pAt k s (i' + 1 + 1) = x := by injection hline
      by_cases hend : i' + 1 + 1 = T' + 1
      · rw [hend, hrun.closes] at hx
        exact ⟨0, by omega, by rw [pAt_zero, hx]⟩
      · exact ⟨i' + 1 + 1, by omega, hx⟩
    · rw [hdd, e_sym] at hline
      have hx : pAt k s i' = x := by injection hline
      exact ⟨i', by omega, hx⟩

theorem run_pAt_inj {k : Knot} {s : Pt} {T : Nat} (hs : s ∈ k.pivots)
    (hrun : CircRun k s T) :
    ∀ a b, a < b → b < T → pAt k s a ≠ pAt k s b := by
  intro a b hab hbT hp
  by_cases hd : dAt a = dAt b
  · rcases run_state_inj (L := T) hs hrun.somes hrun.mids a b (by omega) (by omega) hp hd
      with h1 | ⟨h1, h2⟩
    · omega
    · exact hrun.mids b (by omega) hbT h2
  · rcases run_T_parity hs hrun with hT1 | hTe
    · omega
    · rcases Nat.eq_zero_or_pos a with ha0 | ha0
      · subst ha0
        exact hrun.mids b (by omega) hbT (by rw [← hp, pAt_zero])
      · exact run_no_opp_parity hs hrun hTe a b (by omega) hab (by omega) hp hd

/-! ## The traced circuit as a closed, duplicate-free block -/

theorem circuit_trace_facts {k : Knot} {s : Pt} {out : List Pt}
    (h : k.circuit s = .ok out) :
    s ∈ k.pivots ∧ out ≠ [] ∧ out.Nodup ∧ s ∈ out ∧
      (∀ q ∈ out, q ∈ k.pivots) ∧
      (∀ r ∈ out, ∀ e x, (e = 1 ∨ e = -1) → k.line r e = [x] → x ∈ out) := by
  obtain ⟨hs, T, rfl, hrun⟩ := circuit_ok_run h
  have hmem : ∀ q, q ∈ (List.range T).map (pAt k s) ↔ ∃ j, j < T ∧ pAt k s j = q := by
    intro q
    rw [List.mem_map]
    constructor
    · rintro ⟨j, hj, hq⟩
      exact ⟨j, List.mem_range.mp hj, hq⟩
    · rintro ⟨j, hj, hq⟩
      exact ⟨j, List.mem_range.mpr hj, hq⟩
  refine ⟨hs, ?_, ?_, ?_, ?_, ?_⟩
  · intro hc
    rw [List.map_eq_nil_iff, List.range_eq_nil] at hc
    have := hrun.pos
    omega
  · refine List.Nodup.map_on ?_ (List.nodup_range T)
    intro a ha b hb hab
    rw [List.mem_range] at ha hb
    rcases Nat.lt_trichotomy a b with hlt | heq | hlt
    · exact absurd hab (run_pAt_inj hs hrun a b hlt hb)
    · exact heq
    · exact absurd hab.symm (run_pAt_inj hs hrun b a hlt ha)
  · rw [hmem]
    exact ⟨0, hrun.pos, pAt_zero k s⟩
  · intro q hq
    rw [hmem] at hq
    obtain ⟨j, hj, rfl⟩ := hq
    exact pAt_mem hs (hrun.somes j (by omega))
  · intro r hr e x he hline
    rw [hmem] at hr
    obtain ⟨j, hj, rfl⟩ := hr
    obtain ⟨j', hj', hx⟩ := run_closed hs hrun j hj e x he hline
    rw [hmem]
    exact ⟨j', hj', hx⟩

/-! ## The strand decomposition partitions the pivots -/

theorem trace_disjoint_of_closed {k : Knot} {s : Pt} {current c : List Pt}
    (hcirc : k.circuit s = .ok current)
    (hsnot : s ∉ c)
    (hclosed : ∀ r ∈ c, ∀ e x, (e = 1 ∨ e = -1) → k.line r e = [x] → x ∈ c) :
    ∀ q ∈ current, q ∉ c := by
  obtain ⟨hs, T, rfl, hrun⟩ := circuit_ok_run hcirc
  have hno : ∀ j, j ≤ T → pAt k s j ∉ c := by
    intro j
    induction j with
    | zero =>
      intro _
      rw [pAt_zero]
      exact hsnot
    | succ j ihj =>
      intro hj hc
      have hedge := line_at_of_isSome (hrun.somes (j + 1) hj)
      have hsym := line_singleton_symm (pAt_mem hs (hrun.somes j (by omega))) hedge
      have hprev := hclosed _ hc (dAt j) _ (dAt_cases j) hsym
      exact ihj (by omega) hprev
  intro q hq
  rw [List.mem_map] at hq
  obtain ⟨j, hj, rfl⟩ := hq
  rw [List.mem_range] at hj
  exact hno j (by omega)

theorem strandsGo_partition {k : Knot} {sel : List Pt → Nat} :
    ∀ {fuel : Nat} {visited : List Pt} {sta : Option Pt} {rv out : List (List Pt)},
      strandsGo k sel fuel visited sta rv = .ok out →
      (∀ q ∈ visited, q ∈ k.pivots) →
      (∀ s, sta = some s → s ∈ k.pivots → s ∈ visited) →
      (∀ c ∈ rv, c ≠ [] ∧ c.Nodup ∧ (∀ q ∈ c, q ∈ k.pivots) ∧
        (∀ q ∈ c, q ∉ visited) ∧
        (∀ r ∈ c, ∀ e x, (e = 1 ∨ e = -1) → k.line r e = [x] → x ∈ c)) →
      (List.Pairwise (fun c1 c2 => ∀ q ∈ c1, q ∉ c2) rv) →
      (∀ q ∈ k.pivots, q ∈ visited ∨ ∃ c ∈ rv, q ∈ c) →
      ((∀ c ∈ out, c ≠ [] ∧ c.Nodup ∧ ∀ q ∈ c, q ∈ k.pivots) ∧
        List.Pairwise (fun c1 c2 => ∀ q ∈ c1, q ∉ c2) out ∧
        (∀ q ∈ k.pivots, ∃ c ∈ out, q ∈ c)) := by
  intro fuel
  induction fuel with
  | zero =>
    intro visited sta rv out h hsub hsta hacc hpair hcover
    unfold strandsGo at h
    split at h
    · rename_i hemp
      rw [List.isEmpty_iff] at hemp
      subst hemp
      have hout : rv.reverse = out := Except.ok.inj h
      subst hout
      refine ⟨?_, ?_, ?_⟩
      · intro c hc
        obtain ⟨h1, h2, h3, -, -⟩ := hacc c (List.mem_reverse.mp hc)
        exact ⟨h1, h2, h3⟩
      · rw [List.pairwise_reverse]
        refine hpair.imp ?_
        intro c1 c2 h12 q hq2 hq1
        exact h12 q hq1 hq2
      · intro q hq
        rcases hcover q hq with hv | ⟨c, hc, hqc⟩
        · cases hv
        · exact ⟨c, List.mem_reverse.mpr hc, hqc⟩
    · cases h
  | succ fuel ih =>
    intro visited sta rv out h hsub hsta hacc hpair hcover
    cases visited with
    | nil =>
      have hout : rv.reverse = out := Except.ok.inj h
      subst hout
      refine ⟨?_, ?_, ?_⟩
      · intro c hc
        obtain ⟨h1, h2, h3, -, -⟩ := hacc c (List.mem_reverse.mp hc)
        exact ⟨h1, h2, h3⟩
      · rw [List.pairwise_reverse]
        refine hpair.imp ?_
        intro c1 c2 h12 q hq2 hq1
        exact h12 q hq1 hq2
      · intro q hq
        rcases hcover q hq with hv | ⟨c, hc, hqc⟩
        · cases hv
        · exact ⟨c, List.mem_reverse.mpr hc, hqc⟩
    | cons v vs =>
      cases sta with
      | some s0 =>
        simp only [strandsGo] at h
        revert h
        cases hcirc : k.circuit s0 with
        | error e =>
          intro h
          simp at h
        | ok current =>
          intro h
          obtain ⟨hsPiv, hcne, hcnodup, hsIn, hcsub, hcclosed⟩ := circuit_trace_facts hcirc
          have hstart : s0 ∈ v :: vs := hsta s0 rfl hsPiv
          have hdisj : ∀ c ∈ rv, ∀ q ∈ current, q ∉ c := by
            intro c hc
            obtain ⟨-, -, -, hnotvis, hclosedc⟩ := hacc c hc
            exact trace_disjoint_of_closed hcirc (fun hsc => hnotvis _ hsc hstart) hclosedc
          refine ih h ?_ ?_ ?_ ?_ ?_
          · intro q hq
            exact hsub q (List.mem_of_mem_filter hq)
          · exact fun s hs => absurd hs (by simp)
          · intro c hc
            rcases List.mem_cons.mp hc with hc1 | hc1
            · subst hc1
              refine ⟨hcne, hcnodup, hcsub, ?_, hcclosed⟩
              intro q hq hqf
              obtain ⟨-, hnc⟩ := List.mem_filter.mp hqf
              have hmemc : c.contains q = true := List.elem_iff.mpr hq
              rw [hmemc] at hnc
              cases hnc
            · obtain ⟨h1, h2, h3, h4, h5⟩ := hacc c hc1
              refine ⟨h1, h2, h3, ?_, h5⟩
              intro q hq hqf
              exact h4 q hq (List.mem_of_mem_filter hqf)
          · rw [List.pairwise_cons]
            exact ⟨fun c hc q hq => hdisj c hc q hq, hpair⟩
          · intro q hq
            rcases hcover q hq with h1 | ⟨c, hc, hqc⟩
            · by_cases hqc : q ∈ current
              · exact Or.inr ⟨current, List.mem_cons_self _ _, hqc⟩
              · refine Or.inl (List.mem_filter.mpr ⟨h1, ?_⟩)
                have hno : current.contains q = false := by
                  rw [Bool.eq_false_iff]
                  exact fun hc2 => hqc (List.elem_iff.mp hc2)
                simpa using hqc
            · exact Or.inr ⟨c, List.mem_cons_of_mem _ hc, hqc⟩
      | none =>
        simp only [strandsGo] at h
        revert h
        cases hcirc : k.circuit ((v :: vs).get
            ⟨sel (v :: vs) % (vs.length + 1), Nat.mod_lt _ (Nat.succ_pos _)⟩) with
        | error e =>
          intro h
          simp at h
        | ok current =>
          intro h
          obtain ⟨hsPiv, hcne, hcnodup, hsIn, hcsub, hcclosed⟩ := circuit_trace_facts hcirc
          have hstart : (v :: vs).get
              ⟨sel (v :: vs) % (vs.length + 1), Nat.mod_lt _ (Nat.succ_pos _)⟩ ∈ v :: vs :=
            List.get_mem _ _ _
          have hdisj : ∀ c ∈ rv, ∀ q ∈ current, q ∉ c := by
            intro c hc
            obtain ⟨-, -, -, hnotvis, hclosedc⟩ := hacc c hc
            exact trace_disjoint_of_closed hcirc (fun hsc => hnotvis _ hsc hstart) hclosedc
          refine ih h ?_ ?_ ?_ ?_ ?_
          · intro q hq
            exact hsub q (List.mem_of_mem_filter hq)
          · exact fun s hs => absurd hs (by simp)
          · intro c hc
            rcases List.mem_cons.mp hc with hc1 | hc1
            · subst hc1
              refine ⟨hcne, hcnodup, hcsub, ?_, hcclosed⟩
              intro q hq hqf
              obtain ⟨-, hnc⟩ := List.mem_filter.mp hqf
              have hmemc : c.contains q = true := List.elem_iff.mpr hq
              rw [hmemc] at hnc
              cases hnc
            · obtain ⟨h1, h2, h3, h4, h5⟩ := hacc c hc1
              refine ⟨h1, h2, h3, ?_, h5⟩
              intro q hq hqf
              exact h4 q hq (List.mem_of_mem_filter hqf)
          · rw [List.pairwise_cons]
            exact ⟨fun c hc q hq => hdisj c hc q hq, hpair⟩
          · intro q hq
            rcases hcover q hq with h1 | ⟨c, hc, hqc⟩
            · by_cases hqc : q ∈ current
              · exact Or.inr ⟨current, List.mem_cons_self _ _, hqc⟩
              · refine Or.inl (List.mem_filter.mpr ⟨h1, ?_⟩)
                have hno : current.contains q = false := by
                  rw [Bool.eq_false_iff]
                  exact fun hc2 => hqc (List.elem_iff.mp hc2)
                simpa using hqc
            · exact Or.inr ⟨c, List.mem_cons_of_mem _ hc, hqc⟩

/-- C2: the parity check of Point.__init__ never fires for integer inputs
because of the missing parentheses around the conjunction; the odd-sum
point (1,0) is accepted (the raise condition evaluates to false), and a knot
whose only pivot has the odd coordinate sum 0+1 is likewise constructed
without any error.  This refutes the claim as a bug in the code: the error
message itself ("Point must be ints and add to an even number") documents
the intended check. -/
theorem C2_odd_sum_point_accepted :
    pointInitRaises 1 0 = false ∧ ((1 : Int) + 0) % 2 = 1 ∧
      (mkKnot [((0 : Int), (1 : Int))]).isOk = true := by
  exact ⟨rfl, rfl, rfl⟩

/-- C4: for every successfully constructed knot, the valid flag is true iff
the pivot count is even and the pivot count equals xmodulus. -/
theorem C4_valid_iff (l : List Pt) (k : Knot) (h : mkKnot l = .ok k) :
    k.valid = true ↔ (k.pivots.length % 2 = 0 ∧ k.xmodulus = (k.pivots.length : Int)) :=
  mkKnot_valid_iff h

/-- Witness for C4 at the concrete accepted pivot list [(0,0),(1,1)]. -/
theorem C4_valid_iff_witness :
    (knotOf ((0 : Int), (0 : Int)) [((1 : Int), (1 : Int))]).valid = true ↔
      ((knotOf ((0 : Int), (0 : Int)) [((1 : Int), (1 : Int))]).pivots.length % 2 = 0 ∧
        (knotOf ((0 : Int), (0 : Int)) [((1 : Int), (1 : Int))]).xmodulus =
          ((knotOf ((0 : Int), (0 : Int)) [((1 : Int), (1 : Int))]).pivots.length : Int)) :=
  C4_valid_iff [((0 : Int), (0 : Int)), ((1 : Int), (1 : Int))] _ rfl

/-- C5 (counterexample): for the accepted pivot list [(0,0),(2,0)] the
maximum pivot x-coordinate after normalization is 2, which is already even,
yet xmodulus is 4; so xmodulus is not the smallest even number greater than
or equal to the maximum pivot x-coordinate, refuting the claim as stated. -/
theorem C5_xmodulus_not_least_even_geq :
    (mkKnot [((0 : Int), (0 : Int)), (2, 0)]).map Knot.xmodulus = .ok 4 ∧
    (mkKnot [((0 : Int), (0 : Int)), (2, 0)]).map pivotMaxX = .ok 2 ∧
    (2 : Int) % 2 = 0 ∧ (2 : Int) ≤ 2 ∧ (4 : Int) ≠ 2 := by
  exact ⟨rfl, rfl, by decide, by decide, by decide⟩

/-- C5 (amended): for every accepted pivot list, xmodulus is the smallest
even number strictly greater than the maximum pivot x-coordinate after
normalization (maxX+1 for odd maxX, maxX+2 for even maxX). -/
theorem C5_xmodulus_least_even_above (l : List Pt) (k : Knot) (h : mkKnot l = .ok k) :
    k.xmodulus % 2 = 0 ∧ pivotMaxX k < k.xmodulus ∧
      ∀ e : Int, e % 2 = 0 → pivotMaxX k < e → k.xmodulus ≤ e := by
  refine ⟨mkKnot_xmod_even h, mkKnot_maxX_lt_xmod h, ?_⟩
  rcases mkKnot_ok_elim h with ⟨p, ps, rfl, hc, rfl⟩
  rw [knotOf_pivotMaxX]
  intro e he hgt
  have := Int.emod_two_eq (knotMaxX p ps)
  show knotMaxX p ps + (2 - knotMaxX p ps % 2) ≤ e
  omega

/-- Witness for the amended C5 at the concrete list [(0,0),(2,0)]. -/
theorem C5_xmodulus_least_even_above_witness :
    (knotOf ((0 : Int), (0 : Int)) [((2 : Int), (0 : Int))]).xmodulus % 2 = 0 ∧
      pivotMaxX (knotOf ((0 : Int), (0 : Int)) [((2 : Int), (0 : Int))]) <
        (knotOf ((0 : Int), (0 : Int)) [((2 : Int), (0 : Int))]).xmodulus ∧
      ∀ e : Int, e % 2 = 0 →
        pivotMaxX (knotOf ((0 : Int), (0 : Int)) [((2 : Int), (0 : Int))]) < e →
        (knotOf ((0 : Int), (0 : Int)) [((2 : Int), (0 : Int))]).xmodulus ≤ e :=
  C5_xmodulus_least_even_above [((0 : Int), (0 : Int)), ((2 : Int), (0 : Int))] _ rfl

/-- C9: after a successful construction the pivot x and y coordinates are
all nonnegative with a pivot at (0,0) (so both minima are 0 and are attained
jointly), the pivot list is sorted in row-major order, and construction
fails with the lower-left-corner error precisely when no input point sits at
the joint minimum corner. -/
theorem C9_normalization :
    (∀ l k, mkKnot l = .ok k →
      ((0, 0) ∈ k.pivots ∧ (∀ q ∈ k.pivots, 0 ≤ q.1 ∧ 0 ≤ q.2) ∧
        k.pivots.Pairwise (fun a b => a.2 < b.2 ∨ (a.2 = b.2 ∧ a.1 ≤ b.1)))) ∧
    (∀ p ps, (cornerX p ps, cornerY p ps) ∉ (p :: ps) →
      mkKnot (p :: ps) = .error .noLowerLeft) := by
  constructor
  · intro l k h
    refine ⟨mkKnot_origin_mem h, ?_, mkKnot_sorted h⟩
    intro q hq
    obtain ⟨a, _, b, _⟩ := mkKnot_pivot_bounds h q hq
    exact ⟨a, b⟩
  · intro p ps hnc
    rw [mkKnot_cons, if_neg hnc]

/-- Witness for C9: the accepted list [(1,2),(3,2)] normalizes with a pivot
at the origin, and the cornerless list [(0,1),(1,0)] is rejected. -/
theorem C9_normalization_witness :
    ((0, 0) ∈ (knotOf ((1 : Int), (2 : Int)) [((3 : Int), (2 : Int))]).pivots) ∧
      mkKnot [((0 : Int), (1 : Int)), ((1 : Int), (0 : Int))] = .error .noLowerLeft := by
  constructor
  · exact (C9_normalization.1 [((1 : Int), (2 : Int)), ((3 : Int), (2 : Int))] _ rfl).1
  · exact C9_normalization.2 ((0 : Int), (1 : Int)) [((1 : Int), (0 : Int))] (by decide)

/-- C10: two distinct pivots of a built knot with nonzero slopebetween have
different y coordinates, and consequently pointsbetween on them can never
take the horizontal-line error branch. -/
theorem C10_no_horizontal_line (l : List Pt) (k : Knot) (p1 p2 : Pt)
    (h : mkKnot l = .ok k) (h1 : p1 ∈ k.pivots) (h2 : p2 ∈ k.pivots)
    (hne : p1 ≠ p2) (hs : k.slopebetween p1 p2 ≠ 0) :
    p1.2 ≠ p2.2 ∧ k.pointsbetween p1 p2 ≠ .error .horizontalLine := by
  have hy := slope_nonzero_y_ne h h1 h2 hne hs
  refine ⟨hy, ?_⟩
  rw [pointsbetween_eq_go hs hy]
  intro hcon
  exact pointsbetweenGo_results _ _ _ _ hcon

/-- Witness for C10 on TH(2,2): pivots (0,0) and (2,2) share the slope -1
diagonal there. -/
theorem C10_no_horizontal_line_witness :
    ((0 : Int), (0 : Int)).2 ≠ ((2 : Int), (2 : Int)).2 ∧
      (knotOf ((0 : Int), (0 : Int)) [(2, 0), (0, 2), (2, 2)]).pointsbetween (0, 0) (2, 2) ≠
        .error .horizontalLine := by
  refine C10_no_horizontal_line [((0 : Int), (0 : Int)), (2, 0), (0, 2), (2, 2)] _ _ _
    rfl (by decide) (by decide) (by decide) (by decide)

/-- C7: for two pivots of a built knot with nonzero slopebetween,
pointsbetween never exhausts its iteration bound (no fuelOut), and when it
returns a list every returned point has y strictly between the endpoint
y-coordinates, lies on the shared diagonal through the first endpoint taken
modulo xmodulus, and is neither endpoint. -/
theorem C7_pointsbetween_strict (l : List Pt) (k : Knot) (p1 p2 : Pt)
    (h : mkKnot l = .ok k) (h1 : p1 ∈ k.pivots) (h2 : p2 ∈ k.pivots) (hne : p1 ≠ p2)
    (hs : k.slopebetween p1 p2 ≠ 0) :
    k.pointsbetween p1 p2 ≠ .error .fuelOut ∧
    ∀ out, k.pointsbetween p1 p2 = .ok out → ∀ q ∈ out,
      ((p1.2 < q.2 ∧ q.2 < p2.2) ∨ (p2.2 < q.2 ∧ q.2 < p1.2)) ∧
      q.1 = (p1.1 + k.slopebetween p1 p2 * (q.2 - p1.2)) % k.xmodulus ∧
      q ≠ p1 ∧ q ≠ p2 := by
  have hy := slope_nonzero_y_ne h h1 h2 hne hs
  have b1 := mkKnot_pivot_bounds h p1 h1
  have b2 := mkKnot_pivot_bounds h p2 h2
  have hd : -(pycmp p1.2 p2.2) = 1 ∨ -(pycmp p1.2 p2.2) = -1 := by
    rcases lt_or_gt_of_ne hy with hlt | hgt
    · rw [pycmp_of_lt hlt]
      exact Or.inl (by ring)
    · rw [pycmp_of_gt hgt]
      exact Or.inr rfl
  constructor
  · rw [pointsbetween_eq_go hs hy]
    apply pointsbetweenGo_no_fuelOut hd
    rcases hd with hd1 | hd1 <;> rw [hd1]
    · rw [if_pos rfl]
      omega
    · rw [if_neg (by omega : ¬(-1 : Int) = 1)]
      omega
  · intro out hout q hq
    rw [pointsbetween_eq_go hs hy] at hout
    have hmain := @pointsbetweenGo_between _ _ p1 _ _ hd _ _ _ _ _ hout ?_ ?_ ?_ q hq
    · obtain ⟨⟨ha, hb⟩, hc⟩ := hmain
      have hdir : (-(pycmp p1.2 p2.2) = 1 ∧ p1.2 < p2.2) ∨
          (-(pycmp p1.2 p2.2) = -1 ∧ p2.2 < p1.2) := by
        rcases lt_or_gt_of_ne hy with hlt | hgt
        · rw [pycmp_of_lt hlt]
          exact Or.inl ⟨by ring, hlt⟩
        · rw [pycmp_of_gt hgt]
          exact Or.inr ⟨rfl, hgt⟩
      have hyq : (p1.2 < q.2 ∧ q.2 < p2.2) ∨ (p2.2 < q.2 ∧ q.2 < p1.2) := by
        rcases hdir with ⟨hd1, hlt⟩ | ⟨hd1, hgt⟩
        · rw [hd1] at ha hb
          exact Or.inl (by omega)
        · rw [hd1] at ha hb
          exact Or.inr (by omega)
      refine ⟨hyq, hc, ?_, ?_⟩
      · intro hqe
        subst hqe
        rcases hyq with ⟨a, _⟩ | ⟨_, a⟩ <;> omega
      · intro hqe
        subst hqe
        rcases hyq with ⟨_, a⟩ | ⟨a, _⟩ <;> omega
    · congr 1
      ring
    · rcases hd with h' | h' <;> rw [h'] <;> omega
    · intro r hr
      cases hr

/-- Witness for C7 on TH(2,2) with pivots (0,0) and (2,2). -/
theorem C7_pointsbetween_strict_witness :
    (knotOf ((0 : Int), (0 : Int)) [(2, 0), (0, 2), (2, 2)]).pointsbetween (0, 0) (2, 2) ≠
        .error .fuelOut ∧
    ∀ out, (knotOf ((0 : Int), (0 : Int)) [(2, 0), (0, 2), (2, 2)]).pointsbetween
        (0, 0) (2, 2) = .ok out → ∀ q ∈ out,
      ((((0 : Int), (0 : Int)) : Pt).2 < q.2 ∧ q.2 < (((2 : Int), (2 : Int)) : Pt).2 ∨
        ((((2 : Int), (2 : Int)) : Pt).2 < q.2 ∧ q.2 < (((0 : Int), (0 : Int)) : Pt).2)) ∧
      q.1 = ((((0 : Int), (0 : Int)) : Pt).1 +
          (knotOf ((0 : Int), (0 : Int)) [(2, 0), (0, 2), (2, 2)]).slopebetween (0, 0) (2, 2) *
            (q.2 - (((0 : Int), (0 : Int)) : Pt).2)) %
          (knotOf ((0 : Int), (0 : Int)) [(2, 0), (0, 2), (2, 2)]).xmodulus ∧
      q ≠ ((0 : Int), (0 : Int)) ∧ q ≠ ((2 : Int), (2 : Int)) :=
  C7_pointsbetween_strict [((0 : Int), (0 : Int)), (2, 0), (0, 2), (2, 2)] _ _ _
    rfl (by decide) (by decide) (by decide) (by decide)

/-- Top-level form of the partition facts for Knot.strands. -/
theorem strands_partition_facts {k : Knot} {sel : List Pt → Nat} {sta : Option Pt}
    {out : List (List Pt)} (h : k.strands sel sta = .ok out) :
    (∀ c ∈ out, c ≠ [] ∧ c.Nodup ∧ ∀ q ∈ c, q ∈ k.pivots) ∧
      List.Pairwise (fun c1 c2 => ∀ q ∈ c1, q ∉ c2) out ∧
      (∀ q ∈ k.pivots, ∃ c ∈ out, q ∈ c) := by
  refine strandsGo_partition h (fun q hq => hq) (fun s _ hs => hs) ?_ ?_ ?_
  · intro c hc
    cases hc
  · exact List.Pairwise.nil
  · intro q hq
    exact Or.inl hq

/-- If a circuit trace starts inside a set of points closed under singleton
line lookups in both directions, the whole trace stays inside it. -/
theorem trace_subset_of_closed {k : Knot} {s : Pt} {current : List Pt} {c : List Pt}
    (hcirc : k.circuit s = .ok current)
    (hsc : s ∈ c)
    (hclosed : ∀ r ∈ c, ∀ e x, (e = 1 ∨ e = -1) → k.line r e = [x] → x ∈ c) :
    ∀ q ∈ current, q ∈ c := by
  obtain ⟨hs, T, rfl, hrun⟩ := circuit_ok_run hcirc
  have hin : ∀ j, j ≤ T → pAt k s j ∈ c := by
    intro j
    induction j with
    | zero =>
      intro _
      rw [pAt_zero]
      exact hsc
    | succ j ihj =>
      intro hj
      have hedge := line_at_of_isSome (hrun.somes (j + 1) hj)
      exact hclosed _ (ihj (by omega)) (dAt j) _ (dAt_cases j) hedge
  intro q hq
  rw [List.mem_map] at hq
  obtain ⟨j, hj, rfl⟩ := hq
  rw [List.mem_range] at hj
  exact hin j (by omega)

/-- Every circuit in a successful strandsGo output is the trace of some
Knot.circuit call. -/
theorem strandsGo_circuits {k : Knot} {sel : List Pt → Nat} :
    ∀ {fuel : Nat} {visited : List Pt} {sta : Option Pt} {rv out : List (List Pt)},
      strandsGo k sel fuel visited sta rv = .ok out →
      (∀ c ∈ rv, ∃ s, k.circuit s = .ok c) →
      ∀ c ∈ out, ∃ s, k.circuit s = .ok c := by
  intro fuel
  induction fuel with
  | zero =>
    intro visited sta rv out h hrv
    unfold strandsGo at h
    split at h
    · have hout : rv.reverse = out := Except.ok.inj h
      subst hout
      intro c hc
      exact hrv c (List.mem_reverse.mp hc)
    · cases h
  | succ fuel ih =>
    intro visited sta rv out h hrv
    cases visited with
    | nil =>
      have hout : rv.reverse = out := Except.ok.inj h
      subst hout
      intro c hc
      exact hrv c (List.mem_reverse.mp hc)
    | cons v vs =>
      cases sta with
      | some s0 =>
        simp only [strandsGo] at h
        revert h
        cases hcirc : k.circuit s0 with
        | error e =>
          intro h
          simp at h
        | ok current =>
          intro h
          refine ih h ?_
          intro c hc
          rcases List.mem_cons.mp hc with hc1 | hc1
          · subst hc1
            exact ⟨_, hcirc⟩
          · exact hrv c hc1
      | none =>
        simp only [strandsGo] at h
        revert h
        cases hcirc : k.circuit ((v :: vs).get
            ⟨sel (v :: vs) % (vs.length + 1), Nat.mod_lt _ (Nat.succ_pos _)⟩) with
        | error e =>
          intro h
          simp at h
        | ok current =>
          intro h
          refine ih h ?_
          intro c hc
          rcases List.mem_cons.mp hc with hc1 | hc1
          · subst hc1
            exact ⟨_, hcirc⟩
          · exact hrv c hc1

/-- In a pairwise-disjoint list of circuits, two members sharing a point are
the same list. -/
theorem pairwise_disjoint_mem_eq {out : List (List Pt)}
    (hp : List.Pairwise (fun c1 c2 => ∀ q ∈ c1, q ∉ c2) out) :
    ∀ c ∈ out, ∀ c' ∈ out, ∀ x, x ∈ c → x ∈ c' → c = c' := by
  induction out with
  | nil =>
    intro c hc
    cases hc
  | cons a l ihl =>
    rw [List.pairwise_cons] at hp
    intro c hc c' hc' x hx hx'
    rcases List.mem_cons.mp hc with rfl | hcl
    · rcases List.mem_cons.mp hc' with rfl | hcl'
      · rfl
      · exact absurd hx' (hp.1 c' hcl' x hx)
    · rcases List.mem_cons.mp hc' with rfl | hcl'
      · exact absurd hx (hp.1 c hcl x hx')
      · exact ihl hp.2 c hcl c' hcl' x hx hx'

/-- One direction of the set-level determinism of strands: every circuit of
one successful run coincides, as a set of pivots, with a circuit of any other
successful run on the same knot. -/
theorem strands_blocks_refine {k : Knot} {sel1 sel2 : List Pt → Nat}
    {sta1 sta2 : Option Pt} {out1 out2 : List (List Pt)}
    (h1 : k.strands sel1 sta1 = .ok out1) (h2 : k.strands sel2 sta2 = .ok out2) :
    ∀ c1 ∈ out1, ∃ c2 ∈ out2, ∀ q, q ∈ c1 ↔ q ∈ c2 := by
  have hcir1 : ∀ c ∈ out1, ∃ s, k.circuit s = .ok c :=
    strandsGo_circuits h1 (fun c hc => absurd hc (by simp))
  have hcir2 : ∀ c ∈ out2, ∃ s, k.circuit s = .ok c :=
    strandsGo_circuits h2 (fun c hc => absurd hc (by simp))
  obtain ⟨hne1, hpair1, hcov1⟩ := strands_partition_facts h1
  obtain ⟨hne2, hpair2, hcov2⟩ := strands_partition_facts h2
  intro c1 hc1
  obtain ⟨s1, hs1⟩ := hcir1 c1 hc1
  obtain ⟨hs1piv, -, -, hs1in, -, -⟩ := circuit_trace_facts hs1
  obtain ⟨c2, hc2, hs1c2⟩ := hcov2 s1 hs1piv
  obtain ⟨s2, hs2⟩ := hcir2 c2 hc2
  obtain ⟨hs2piv, -, -, hs2in, -, hclosed2⟩ := circuit_trace_facts hs2
  refine ⟨c2, hc2, fun q => ⟨?_, ?_⟩⟩
  · intro hq
    exact trace_subset_of_closed hs1 hs1c2 hclosed2 q hq
  · intro hq
    obtain ⟨c1', hc1', hs2c1'⟩ := hcov1 s2 hs2piv
    obtain ⟨s1', hs1'⟩ := hcir1 c1' hc1'
    obtain ⟨-, -, -, -, -, hclosed1'⟩ := circuit_trace_facts hs1'
    have hsub21 : ∀ x ∈ c2, x ∈ c1' := trace_subset_of_closed hs2 hs2c1' hclosed1'
    have hs1c1' : s1 ∈ c1' := hsub21 s1 hs1c2
    have heq : c1 = c1' := pairwise_disjoint_mem_eq hpair1 c1 hc1 c1' hc1' s1 hs1in hs1c1'
    rw [heq]
    exact hsub21 q hq

/-- A filter is strictly shorter when some element fails the predicate. -/
theorem length_filter_lt {p : Pt → Bool} {l : List Pt} {x : Pt}
    (hx : x ∈ l) (hpx : p x = false) : (l.filter p).length < l.length := by
  induction l with
  | nil => cases hx
  | cons a l ihl =>
    rcases List.mem_cons.mp hx with rfl | hxl
    · have := List.length_filter_le p l
      simp only [List.filter_cons, hpx, Bool.false_eq_true, if_false, List.length_cons]
      omega
    · cases hpa : p a
      · have := ihl hxl
        simp only [List.filter_cons, hpa, Bool.false_eq_true, if_false, List.length_cons]
        omega
      · have := ihl hxl
        simp only [List.filter_cons, hpa, if_true, List.length_cons]
        omega

/-- A circuit from a pivot can only fail with the not-tyable error. -/
theorem circuit_error_of_mem {k : Knot} {s : Pt} {e : KErr} (hs : s ∈ k.pivots)
    (h : k.circuit s = .error e) : e = .notTyable := by
  unfold Knot.circuit at h
  rw [if_pos hs] at h
  rcases circuitGo_error_classes h with h2 | h2
  · exact h2
  · subst h2
    exact absurd h (circuitGo_no_fuelOut hs)

/-- With no pending start, enough fuel, and a working set inside the pivots,
the strands loop can only fail with the not-tyable error. -/
theorem strandsGo_errors {k : Knot} {sel : List Pt → Nat} :
    ∀ {fuel : Nat} {visited : List Pt} {rv : List (List Pt)} {e : KErr},
      (∀ q ∈ visited, q ∈ k.pivots) →
      visited.length < fuel →
      strandsGo k sel fuel visited none rv = .error e →
      e = .notTyable := by
  intro fuel
  induction fuel with
  | zero =>
    intro visited rv e hsub hlt h
    omega
  | succ fuel ih =>
    intro visited rv e hsub hlt h
    cases visited with
    | nil => cases h
    | cons v vs =>
      simp only [strandsGo] at h
      revert h
      cases hcirc : k.circuit ((v :: vs).get
          ⟨sel (v :: vs) % (vs.length + 1), Nat.mod_lt _ (Nat.succ_pos _)⟩) with
      | error e0 =>
        intro h
        have hmem : (v :: vs).get
            ⟨sel (v :: vs) % (vs.length + 1), Nat.mod_lt _ (Nat.succ_pos _)⟩ ∈ v :: vs :=
          List.get_mem _ _ _
        have he0 := circuit_error_of_mem (hsub _ hmem) hcirc
        have h2 : (Except.error e0 : Except KErr (List (List Pt))) = Except.error e := h
        have he : e0 = e := by
          injection h2 with h3
        rw [← he, he0]
      | ok current =>
        intro h
        refine ih ?_ ?_ h
        · intro q hq
          exact hsub q (List.mem_of_mem_filter hq)
        · obtain ⟨hsPiv, -, -, hsIn, -, -⟩ := circuit_trace_facts hcirc
          have hmem : (v :: vs).get
              ⟨sel (v :: vs) % (vs.length + 1), Nat.mod_lt _ (Nat.succ_pos _)⟩ ∈ v :: vs :=
            List.get_mem _ _ _
          have hcon : current.contains ((v :: vs).get
              ⟨sel (v :: vs) % (vs.length + 1), Nat.mod_lt _ (Nat.succ_pos _)⟩) = true :=
            List.elem_iff.mpr hsIn
          have hf : (fun q => !(current.contains q)) ((v :: vs).get
              ⟨sel (v :: vs) % (vs.length + 1), Nat.mod_lt _ (Nat.succ_pos _)⟩) = false := by
            show (!(current.contains ((v :: vs).get
              ⟨sel (v :: vs) % (vs.length + 1), Nat.mod_lt _ (Nat.succ_pos _)⟩))) = false
            rw [hcon]
            rfl
          have := length_filter_lt (p := fun q => !(current.contains q)) hmem hf
          simp only [List.length_cons] at hlt this ⊢
          omega

/-- Knot.strands with no start argument can only fail with the not-tyable
error. -/
theorem strands_errors {k : Knot} {sel : List Pt → Nat} {e : KErr}
    (h : k.strands sel none = .error e) : e = .notTyable :=
  strandsGo_errors (fun q hq => hq) (Nat.lt_succ_self _) h

/-- The Layers candidate loop is insensitive to the catch policy: the only
error its try block can see is the not-tyable one, which both policies
catch. -/
theorem layersGo_catch_eq (sel : List Pt → Nat) (total : Int) (layers : List (Int × Int)) :
    ∀ combs, layersGo sel true total layers combs = layersGo sel false total layers combs := by
  intro combs
  induction combs with
  | nil => rfl
  | cons comb rest ih =>
    cases hmk : mkKnot (assemblePts total layers comb) with
    | error e =>
      simp only [layersGo, hmk]
    | ok k =>
      cases hs : k.strands sel none with
      | ok out =>
        simp only [layersGo, hmk, hs, ih]
      | error e =>
        have he := strands_errors hs
        subst he
        simp only [layersGo, hmk, hs]
        simp [ih]

/-- C3: whenever Knot.strands succeeds on a knot, the returned circuits are
pairwise disjoint as pivot sets and their union is exactly the knot's pivot
set: every circuit is a non-empty duplicate-free list of pivots, no pivot
appears in two circuits, and every pivot appears in some circuit. -/
theorem C3_strands_partition {k : Knot} {sel : List Pt → Nat} {sta : Option Pt}
    {out : List (List Pt)} (h : k.strands sel sta = .ok out) :
    (∀ c ∈ out, c ≠ [] ∧ c.Nodup ∧ ∀ q ∈ c, q ∈ k.pivots) ∧
      List.Pairwise (fun c1 c2 => ∀ q ∈ c1, q ∉ c2) out ∧
      (∀ q ∈ k.pivots, ∃ c ∈ out, q ∈ c) :=
  strands_partition_facts h

/-- Witness for C3 on the 2-lead 3-bight knot: with the first-element pop
order and no start argument, strands returns one circuit covering all six
pivots, and the partition properties hold for it. -/
theorem C3_strands_partition_witness :
    (∀ c ∈ [[((0:Int),(0:Int)),(2,2),(4,0),(0,2),(2,0),(4,2)]], c ≠ [] ∧ c.Nodup ∧
        ∀ q ∈ c, q ∈ [((0:Int),(0:Int)),(2,0),(4,0),(0,2),(2,2),(4,2)]) ∧
      List.Pairwise (fun c1 c2 => ∀ q ∈ c1, q ∉ c2)
        [[((0:Int),(0:Int)),(2,2),(4,0),(0,2),(2,0),(4,2)]] ∧
      (∀ q ∈ [((0:Int),(0:Int)),(2,0),(4,0),(0,2),(2,2),(4,2)],
        ∃ c ∈ [[((0:Int),(0:Int)),(2,2),(4,0),(0,2),(2,0),(4,2)]], q ∈ c) :=
  @C3_strands_partition ⟨[(0,0),(2,0),(4,0),(0,2),(2,2),(4,2)], 6, 2, true⟩
    (fun _ => 0) none [[(0,0),(2,2),(4,0),(0,2),(2,0),(4,2)]] (by rfl)

/-- C6 counterexample: on the bit-identical 2-lead 2-bight knot with the same
start argument (none), two runs of strands that pop the working set in
different orders return different circuit sequences, so the output is not
determined by the knot and the start argument alone. -/
theorem C6_strands_pop_order_dependent :
    Knot.strands ⟨[(0,0),(2,0),(0,2),(2,2)], 4, 2, true⟩ (fun _ => 0) none ≠
      Knot.strands ⟨[(0,0),(2,0),(0,2),(2,2)], 4, 2, true⟩ (fun _ => 1) none := by
  intro h
  have h1 : Knot.strands ⟨[(0,0),(2,0),(0,2),(2,2)], 4, 2, true⟩ (fun _ => 0) none =
      .ok [[(0,0),(2,2)],[(2,0),(0,2)]] := rfl
  have h2 : Knot.strands ⟨[(0,0),(2,0),(0,2),(2,2)], 4, 2, true⟩ (fun _ => 1) none =
      .ok [[(2,0),(0,2)],[(2,2),(0,0)]] := rfl
  rw [h1, h2] at h
  injection h with h3
  exact absurd h3 (by decide)

/-- C6 (amended): two successful runs of strands on the same knot agree up to
the order of the circuits and the order and starting point of the pivots
inside each circuit: every circuit of one run equals some circuit of the
other run as a set of pivots, in both directions. -/
theorem C6_strands_same_partition {k : Knot} {sel1 sel2 : List Pt → Nat}
    {sta1 sta2 : Option Pt} {out1 out2 : List (List Pt)}
    (h1 : k.strands sel1 sta1 = .ok out1) (h2 : k.strands sel2 sta2 = .ok out2) :
    (∀ c1 ∈ out1, ∃ c2 ∈ out2, ∀ q, q ∈ c1 ↔ q ∈ c2) ∧
      (∀ c2 ∈ out2, ∃ c1 ∈ out1, ∀ q, q ∈ c2 ↔ q ∈ c1) :=
  ⟨strands_blocks_refine h1 h2, strands_blocks_refine h2 h1⟩

/-- Witness for the amended C6 on the 2-lead 2-bight knot: the two pop orders
of the counterexample give sequences that match circuit-by-circuit as sets. -/
theorem C6_strands_same_partition_witness :
    (∀ c1 ∈ [[((0:Int),(0:Int)),(2,2)],[(2,0),(0,2)]],
        ∃ c2 ∈ [[((2:Int),(0:Int)),(0,2)],[(2,2),(0,0)]], ∀ q, q ∈ c1 ↔ q ∈ c2) ∧
      (∀ c2 ∈ [[((2:Int),(0:Int)),(0,2)],[(2,2),(0,0)]],
        ∃ c1 ∈ [[((0:Int),(0:Int)),(2,2)],[(2,0),(0,2)]], ∀ q, q ∈ c2 ↔ q ∈ c1) :=
  @C6_strands_same_partition ⟨[(0,0),(2,0),(0,2),(2,2)], 4, 2, true⟩
    (fun _ => 0) (fun _ => 1) none none
    [[(0,0),(2,2)],[(2,0),(0,2)]] [[(2,0),(0,2)],[(2,2),(0,0)]] (by rfl) (by rfl)

/-- C8: the per-candidate try of the Layers search behaves exactly as the
spec words it.  Construction of a candidate happens outside the try, so a
construction error aborts the whole operation under both policies; inside the
try only the not-tyable decomposition error can arise, so the source's bare
catch-everything equals catching only the not-tyable error: the two searches
return identical results for every pop order and every layer list. -/
theorem C8_layers_catch_policy (sel : List Pt → Nat) (layers : List (Int × Int)) :
    Knot.Layers sel layers = LayersCatchNotTyable sel layers := by
  simp only [Knot.Layers, LayersCatchNotTyable, layersRun]
  by_cases hc :
      (layers.any (fun e => decide (pygcd ((layers.map Prod.fst).sum) e.1 < 2))) = true
  · simp [hc]
  · simp only [Bool.not_eq_true] at hc
    simp [hc, layersGo_catch_eq]

/-! ## Evaluation of Knot.TH -/

theorem foldMin_eq_seed_or_mem (f : Pt → Int) (seed : Int) (pts : List Pt) :
    foldMin f seed pts = seed ∨ ∃ q ∈ pts, foldMin f seed pts = f q := by
  induction pts generalizing seed with
  | nil => exact Or.inl rfl
  | cons r l ih =>
    rw [foldMin_cons]
    rcases ih (min seed (f r)) with h | ⟨q, hq, h⟩
    · rcases min_choice seed (f r) with hm | hm
      · exact Or.inl (h.trans hm)
      · exact Or.inr ⟨r, List.mem_cons_self _ _, h.trans hm⟩
    · exact Or.inr ⟨q, List.mem_cons_of_mem _ hq, h⟩

theorem shiftPts_zero (pts : List Pt) : shiftPts 0 0 pts = pts := by
  unfold shiftPts
  have h : (fun q : Pt => (q.1 - 0, q.2 - 0)) = id := by
    funext q
    simp
  rw [h, List.map_id]

/-- mkKnot on an already-normalized, already-sorted list is the identity up
to computing xmodulus, ymax, and the valid flag. -/
theorem mkKnot_of_normalized {pts : List Pt} {M Y X : Int} {V : Bool}
    (h0 : ((0 : Int), (0 : Int)) ∈ pts)
    (hnn : ∀ q ∈ pts, 0 ≤ q.1 ∧ 0 ≤ q.2)
    (hsorted : List.Pairwise pivotRel pts)
    (hM : ∀ q ∈ pts, q.1 ≤ M) (hMmem : ∃ q ∈ pts, q.1 = M)
    (hY : ∀ q ∈ pts, q.2 ≤ Y) (hYmem : ∃ q ∈ pts, q.2 = Y)
    (hX : X = M + (2 - M % 2))
    (hV : V = ((pts.length % 2 == 0) && (X == (pts.length : Int)))) :
    mkKnot pts = .ok ⟨pts, X, Y, V⟩ := by
  cases pts with
  | nil => cases h0
  | cons p ps =>
    have hcx : cornerX p ps = 0 := by
      have h1 : cornerX p ps ≤ 0 := by
        have h2 := foldMin_le_mem Prod.fst p.1 h0
        simpa [cornerX] using h2
      have h2 : 0 ≤ cornerX p ps := by
        rcases foldMin_eq_seed_or_mem Prod.fst p.1 (p :: ps) with h | ⟨q, hq, h⟩
        · unfold cornerX
          rw [h]
          exact (hnn p (List.mem_cons_self _ _)).1
        · unfold cornerX
          rw [h]
          exact (hnn q hq).1
      omega
    have hcy : cornerY p ps = 0 := by
      have h1 : cornerY p ps ≤ 0 := by
        have h2 := foldMin_le_mem Prod.snd p.2 h0
        simpa [cornerY] using h2
      have h2 : 0 ≤ cornerY p ps := by
        rcases foldMin_eq_seed_or_mem Prod.snd p.2 (p :: ps) with h | ⟨q, hq, h⟩
        · unfold cornerY
          rw [h]
          exact (hnn p (List.mem_cons_self _ _)).2
        · unfold cornerY
          rw [h]
          exact (hnn q hq).2
      omega
    have hnorm : normPts p ps = p :: ps := by
      unfold normPts
      rw [hcx, hcy, shiftPts_zero]
    have hsort : List.insertionSort pivotRel (normPts p ps) = p :: ps := by
      rw [hnorm]
      exact List.Sorted.insertionSort_eq hsorted
    have hMx : knotMaxX p ps = M := by
      unfold knotMaxX
      rw [hnorm, hcx, sub_zero]
      have hub : foldMax Prod.fst p.1 (p :: ps) ≤ M := by
        rcases foldMax_eq_seed_or_mem Prod.fst p.1 (p :: ps) with h | ⟨q, hq, h⟩
        · rw [h]
          exact hM p (List.mem_cons_self _ _)
        · rw [h]
          exact hM q hq
      have hlb : M ≤ foldMax Prod.fst p.1 (p :: ps) := by
        obtain ⟨q, hq, hqM⟩ := hMmem
        have h3 := foldMax_mem_le Prod.fst p.1 hq
        omega
      omega
    have hMy : knotMaxY p ps = Y := by
      unfold knotMaxY
      rw [hnorm, hcy, sub_zero]
      have hub : foldMax Prod.snd p.2 (p :: ps) ≤ Y := by
        rcases foldMax_eq_seed_or_mem Prod.snd p.2 (p :: ps) with h | ⟨q, hq, h⟩
        · rw [h]
          exact hY p (List.mem_cons_self _ _)
        · rw [h]
          exact hY q hq
      have hlb : Y ≤ foldMax Prod.snd p.2 (p :: ps) := by
        obtain ⟨q, hq, hqY⟩ := hYmem
        have h3 := foldMax_mem_le Prod.snd p.2 hq
        omega
      omega
    rw [mkKnot_cons, if_pos (by rw [hcx, hcy]; exact h0)]
    unfold knotOf
    rw [hsort, hMx, hMy, ← hX, hV]

theorem range2_zero_eval {b : Int} (hb : 1 ≤ b) :
    range2 0 (2 * b) = (List.range b.toNat).map (fun (i : Nat) => (2 * (i : Int))) := by
  unfold range2
  have hc : ((2 * b - 0 + 1) / 2).toNat = b.toNat := by omega
  rw [hc]
  exact List.map_congr_left (fun i _ => by omega)

theorem range2_parity_eval {l b : Int} (hb : 1 ≤ b) :
    range2 (l % 2) (2 * b) = (List.range b.toNat).map (fun (i : Nat) => l % 2 + 2 * (i : Int)) := by
  unfold range2
  have hc : ((2 * b - l % 2 + 1) / 2).toNat = b.toNat := by omega
  rw [hc]

theorem thBot_eval {b : Int} (hb : 1 ≤ b) :
    (range2 0 (2 * b)).map (fun x => (x, (0 : Int))) = thBot b.toNat := by
  rw [range2_zero_eval hb]
  unfold thBot
  rw [List.map_map]
  rfl

theorem thTop_eval {l b : Int} (hb : 1 ≤ b) :
    (range2 (l % 2) (2 * b)).map (fun x => (x, l)) = thTop l b.toNat := by
  rw [range2_parity_eval hb]
  unfold thTop
  rw [List.map_map]
  rfl

theorem mem_thPts {l b : Int} {q : Pt} :
    q ∈ thPts l b ↔
      (∃ i, i < b.toNat ∧ q = botPt i) ∨ (∃ j, j < b.toNat ∧ q = topPt l j) := by
  simp only [thPts, thBot, thTop, List.mem_append, List.mem_map, List.mem_range]
  constructor
  · rintro (⟨i, hi, rfl⟩ | ⟨j, hj, rfl⟩)
    · exact Or.inl ⟨i, hi, rfl⟩
    · exact Or.inr ⟨j, hj, rfl⟩
  · rintro (⟨i, hi, rfl⟩ | ⟨j, hj, rfl⟩)
    · exact Or.inl ⟨i, hi, rfl⟩
    · exact Or.inr ⟨j, hj, rfl⟩

theorem thPts_length (l b : Int) : (thPts l b).length = b.toNat + b.toNat := by
  simp [thPts, thBot, thTop]

theorem thPts_sorted {l b : Int} (hl : 1 ≤ l) : List.Pairwise pivotRel (thPts l b) := by
  unfold thPts
  rw [List.pairwise_append]
  refine ⟨?_, ?_, ?_⟩
  · unfold thBot
    rw [List.pairwise_map]
    refine List.Pairwise.imp ?_ (List.pairwise_lt_range _)
    intro i j hij
    exact Or.inr ⟨rfl, by simp [botPt]; omega⟩
  · unfold thTop
    rw [List.pairwise_map]
    refine List.Pairwise.imp ?_ (List.pairwise_lt_range _)
    intro i j hij
    exact Or.inr ⟨rfl, by simp [topPt]; omega⟩
  · intro x hx y hy
    rcases List.mem_map.mp hx with ⟨i, -, rfl⟩
    rcases List.mem_map.mp hy with ⟨j, -, rfl⟩
    exact Or.inl (by simp [botPt, topPt]; omega)

theorem TH_eq {l b : Int} (hl : 1 ≤ l) (hb : 1 ≤ b) :
    Knot.TH l b = .ok (thKnot l b) := by
  have hbn : 1 ≤ b.toNat := by omega
  unfold Knot.TH
  rw [thBot_eval hb, thTop_eval hb]
  show mkKnot (thPts l b) = .ok ⟨thPts l b, 2 * b, l, true⟩
  refine mkKnot_of_normalized (M := 2 * b - 2 + l % 2) ?_ ?_ (thPts_sorted hl) ?_ ?_ ?_ ?_ ?_ ?_
  · exact mem_thPts.mpr (Or.inl ⟨0, hbn, by simp [botPt]⟩)
  · intro q hq
    rcases mem_thPts.mp hq with ⟨i, hi, rfl⟩ | ⟨j, hj, rfl⟩
    · constructor
      · simp [botPt]
      · simp [botPt]
    · constructor
      · simp [topPt]
        omega
      · simp [topPt]
        omega
  · intro q hq
    rcases mem_thPts.mp hq with ⟨i, hi, rfl⟩ | ⟨j, hj, rfl⟩
    · show 2 * (i : Int) ≤ 2 * b - 2 + l % 2
      omega
    · show l % 2 + 2 * (j : Int) ≤ 2 * b - 2 + l % 2
      omega
  · refine ⟨topPt l (b.toNat - 1), mem_thPts.mpr (Or.inr ⟨b.toNat - 1, by omega, rfl⟩), ?_⟩
    show l % 2 + 2 * ((b.toNat - 1 : Nat) : Int) = 2 * b - 2 + l % 2
    omega
  · intro q hq
    rcases mem_thPts.mp hq with ⟨i, hi, rfl⟩ | ⟨j, hj, rfl⟩
    · show (0 : Int) ≤ l
      omega
    · show l ≤ l
      omega
  · exact ⟨topPt l 0, mem_thPts.mpr (Or.inr ⟨0, hbn, rfl⟩), rfl⟩
  · omega
  · rw [thPts_length]
    have h1 : ((b.toNat + b.toNat) % 2 == 0) = true := by
      rw [beq_iff_eq]
      omega
    have h2 : ((2 * b : Int) == ((b.toNat + b.toNat : Nat) : Int)) = true := by
      rw [beq_iff_eq]
      omega
    rw [h1, h2]
    rfl

/-! ## Lines of the TH knot -/

theorem filter_eq_singleton_of_unique {p : Nat → Bool} :
    ∀ {ln : List Nat}, ln.Nodup → ∀ {i0 : Nat}, i0 ∈ ln → p i0 = true →
      (∀ i ∈ ln, p i = true → i = i0) → ln.filter p = [i0] := by
  intro ln
  induction ln with
  | nil =>
    intro _ i0 h
    cases h
  | cons a t ih =>
    intro hnd i0 hmem hp huni
    rw [List.nodup_cons] at hnd
    rcases List.mem_cons.mp hmem with rfl | hmt
    · rw [List.filter_cons, if_pos hp]
      have hft : t.filter p = [] := by
        rw [List.filter_eq_nil_iff]
        intro x hx hpx
        have hx0 := huni x (List.mem_cons_of_mem _ hx) hpx
        subst hx0
        exact hnd.1 hx
      rw [hft]
    · have hpa : p a = false := by
        cases hq : p a
        · rfl
        · have ha0 := huni a (List.mem_cons_self _ _) hq
          subst ha0
          exact absurd hmt hnd.1
      rw [List.filter_cons, if_neg (by simp [hpa])]
      exact ih hnd.2 hmt hp (fun i hi hpi => huni i (List.mem_cons_of_mem _ hi) hpi)

theorem filter_map_range_eq_singleton {f : Nat → Pt} {p : Pt → Bool} {n i0 : Nat}
    (hi0 : i0 < n) (hiff : ∀ i, i < n → (p (f i) = true ↔ i = i0)) :
    ((List.range n).map f).filter p = [f i0] := by
  rw [List.filter_map]
  have h1 : (List.range n).filter (p ∘ f) = [i0] := by
    refine filter_eq_singleton_of_unique (List.nodup_range n) (List.mem_range.mpr hi0) ?_ ?_
    · exact (hiff i0 hi0).mpr rfl
    · intro i hi hpi
      exact (hiff i (List.mem_range.mp hi)).mp hpi
  rw [h1]
  rfl

theorem two_mul_modeq_iff {b x y : Int} (hb : 1 ≤ b) :
    (2 * x) % (2 * b) = (2 * y) % (2 * b) ↔ x % b = y % b := by
  constructor
  · intro h
    have h1 : 2 * x ≡ 2 * y [ZMOD 2 * b] := h
    have h2 := Int.ModEq.cancel_left_div_gcd (by positivity) h1
    have hg : (Int.gcd (2 * b) 2 : Int) = 2 := by
      have hd : (2 : Int) ∣ 2 * b := Dvd.intro b rfl
      have h4 : Int.gcd (2 * b) 2 = (2 : Int).natAbs := Int.gcd_eq_right hd
      rw [h4]
      rfl
    rw [hg] at h2
    have h3 : (2 * b) / 2 = b := by omega
    rw [h3] at h2
    exact h2
  · intro h
    have h1 : x ≡ y [ZMOD b] := h
    have h2 : 2 * x ≡ 2 * y [ZMOD 2 * b] := Int.ModEq.mul_left' h1
    exact h2

theorem int_nat_modeq {b : Int} (hb : 1 ≤ b) {u v : Nat} :
    ((u : Int) % b = (v : Int) % b) ↔ u % b.toNat = v % b.toNat := by
  have hcast : ((b.toNat : Nat) : Int) = b := by omega
  constructor
  · intro h
    have h2 : ((u % b.toNat : Nat) : Int) = ((v % b.toNat : Nat) : Int) := by
      rw [Int.natCast_mod, Int.natCast_mod, hcast]
      exact h
    exact Nat.cast_injective h2
  · intro h
    have h2 : ((u % b.toNat : Nat) : Int) = ((v % b.toNat : Nat) : Int) := by rw [h]
    rw [Int.natCast_mod, Int.natCast_mod, hcast] at h2
    exact h2

theorem emod_add_cancel_right {n a c t : Int} :
    (a + t) % n = (c + t) % n ↔ a % n = c % n := by
  constructor
  · intro h
    exact Int.ModEq.add_right_cancel' t h
  · intro h
    exact Int.ModEq.add_right t h

theorem add_complement_mod {bn x : Nat} (hbn : 0 < bn) :
    (x + (bn - x % bn)) % bn = 0 := by
  have h1 := Nat.div_add_mod x bn
  have h2 : x % bn < bn := Nat.mod_lt x hbn
  have h3 : x + (bn - x % bn) = bn * (x / bn) + bn := by omega
  rw [h3]
  have h4 : bn * (x / bn) + bn = bn * (x / bn + 1) := by ring
  rw [h4]
  exact Nat.mul_mod_right _ _

theorem nat_mod_shift {bn a t u v : Nat} (ht : (t + u) % bn = 0) :
    ((a + t) % bn = v % bn) ↔ (a % bn = (v + u) % bn) := by
  have ht' : (t + u) ≡ 0 [MOD bn] := by
    unfold Nat.ModEq
    rw [ht, Nat.zero_mod]
  constructor
  · intro h
    have h1 : a + (t + u) ≡ a + 0 [MOD bn] := Nat.ModEq.add_left a ht'
    have h2 : (a + t) + u ≡ v + u [MOD bn] := Nat.ModEq.add_right u h
    have h3 : a ≡ (a + t) + u [MOD bn] := by
      simpa [Nat.add_assoc, Nat.add_zero] using h1.symm
    exact h3.trans h2
  · intro h
    have h1 : a + t ≡ (v + u) + t [MOD bn] := Nat.ModEq.add_right t h
    have h2 : v + (u + t) ≡ v + 0 [MOD bn] :=
      Nat.ModEq.add_left v (by rw [Nat.add_comm u t]; exact ht')
    have h3 : (v + u) + t ≡ v [MOD bn] := by
      simpa [Nat.add_assoc, Nat.add_zero] using h2
    exact h1.trans h3

theorem icept_pos_bot (b : Int) (i : Nat) :
    icept (2 * b) 1 (botPt i) = (2 * (i : Int)) % (2 * b) := by
  unfold icept
  rw [if_neg (by omega)]
  show (2 * (i : Int) - 0) % (2 * b) = _
  rw [sub_zero]

theorem icept_pos_top (l b : Int) (j : Nat) :
    icept (2 * b) 1 (topPt l j) = (2 * ((j : Int) - l / 2)) % (2 * b) := by
  unfold icept
  rw [if_neg (by omega)]
  show (l % 2 + 2 * (j : Int) - l) % (2 * b) = _
  congr 1
  omega

theorem icept_neg_bot (b : Int) (i : Nat) :
    icept (2 * b) (-1) (botPt i) = (2 * (i : Int)) % (2 * b) := by
  unfold icept
  rw [if_pos (by omega)]
  show (2 * (i : Int) + 0) % (2 * b) = _
  rw [add_zero]

theorem icept_neg_top (l b : Int) (j : Nat) :
    icept (2 * b) (-1) (topPt l j) = (2 * ((j : Int) + l / 2 + l % 2)) % (2 * b) := by
  unfold icept
  rw [if_pos (by omega)]
  show (l % 2 + 2 * (j : Int) + l) % (2 * b) = _
  congr 1
  omega

theorem th_cond_bot_bot {b : Int} (hb : 1 ≤ b) (i i' : Nat) :
    ((2 * (i : Int)) % (2 * b) = (2 * (i' : Int)) % (2 * b)) ↔
      i % b.toNat = i' % b.toNat := by
  rw [two_mul_modeq_iff hb]
  exact int_nat_modeq hb

theorem th_cond_bot_top {l b : Int} (hl : 1 ≤ l) (hb : 1 ≤ b) (i j : Nat) :
    ((2 * (i : Int)) % (2 * b) = (2 * ((j : Int) - l / 2)) % (2 * b)) ↔
      (i + thL l) % b.toNat = j % b.toNat := by
  rw [two_mul_modeq_iff hb]
  rw [← emod_add_cancel_right (t := l / 2)]
  rw [sub_add_cancel]
  rw [show ((i : Int) + l / 2) = ((i + thL l : Nat) : Int) from by unfold thL; omega]
  exact int_nat_modeq hb

theorem th_cond_bot_top_neg {l b : Int} (hl : 1 ≤ l) (hb : 1 ≤ b) (i j : Nat) :
    ((2 * (i : Int)) % (2 * b) = (2 * ((j : Int) + l / 2 + l % 2)) % (2 * b)) ↔
      i % b.toNat = (j + thL l + thR l) % b.toNat := by
  rw [two_mul_modeq_iff hb]
  rw [show ((j : Int) + l / 2 + l % 2) = ((j + thL l + thR l : Nat) : Int) from by
    unfold thL thR
    omega]
  exact int_nat_modeq hb

theorem th_cond_top_top {l b : Int} (hl : 1 ≤ l) (hb : 1 ≤ b) (j j' : Nat) :
    ((2 * ((j : Int) - l / 2)) % (2 * b) = (2 * ((j' : Int) - l / 2)) % (2 * b)) ↔
      j % b.toNat = j' % b.toNat := by
  rw [two_mul_modeq_iff hb]
  rw [← emod_add_cancel_right (t := l / 2)]
  rw [sub_add_cancel, sub_add_cancel]
  exact int_nat_modeq hb

theorem th_cond_top_top_neg {l b : Int} (hl : 1 ≤ l) (hb : 1 ≤ b) (j j' : Nat) :
    ((2 * ((j : Int) + l / 2 + l % 2)) % (2 * b) =
        (2 * ((j' : Int) + l / 2 + l % 2)) % (2 * b)) ↔
      j % b.toNat = j' % b.toNat := by
  rw [two_mul_modeq_iff hb]
  rw [show ((j : Int) + l / 2 + l % 2) = ((j + (thL l + thR l) : Nat) : Int) from by
    unfold thL thR
    omega]
  rw [show ((j' : Int) + l / 2 + l % 2) = ((j' + (thL l + thR l) : Nat) : Int) from by
    unfold thL thR
    omega]
  rw [int_nat_modeq hb]
  constructor
  · intro h
    exact Nat.ModEq.add_right_cancel' _ h
  · intro h
    exact Nat.ModEq.add_right _ h

theorem botPt_ne_topPt {l : Int} (hl : 1 ≤ l) (i j : Nat) : botPt i ≠ topPt l j := by
  intro h
  have h2 := congrArg Prod.snd h
  simp only [botPt, topPt] at h2
  omega

theorem th_line_bot_pos {l b : Int} (hl : 1 ≤ l) (hb : 1 ≤ b) {i : Nat} (hi : i < b.toNat) :
    (thKnot l b).line (botPt i) 1 = [topPt l ((i + thL l) % b.toNat)] := by
  have hbn : 0 < b.toNat := by omega
  have hj0 : (i + thL l) % b.toNat < b.toNat := Nat.mod_lt _ hbn
  show ((thPts l b).filter
      (fun q => icept (2 * b) 1 (botPt i) == icept (2 * b) 1 q)).erase (botPt i) = _
  unfold thPts
  rw [List.filter_append]
  have hbf : (thBot b.toNat).filter
      (fun q => icept (2 * b) 1 (botPt i) == icept (2 * b) 1 q) = [botPt i] := by
    unfold thBot
    refine filter_map_range_eq_singleton hi ?_
    intro i' hi'
    show (icept (2 * b) 1 (botPt i) == icept (2 * b) 1 (botPt i')) = true ↔ i' = i
    rw [beq_iff_eq, icept_pos_bot, icept_pos_bot, th_cond_bot_bot hb,
      Nat.mod_eq_of_lt hi, Nat.mod_eq_of_lt hi']
    exact eq_comm
  have htf : (thTop l b.toNat).filter
      (fun q => icept (2 * b) 1 (botPt i) == icept (2 * b) 1 q) =
      [topPt l ((i + thL l) % b.toNat)] := by
    unfold thTop
    refine filter_map_range_eq_singleton hj0 ?_
    intro j hj
    show (icept (2 * b) 1 (botPt i) == icept (2 * b) 1 (topPt l j)) = true ↔
      j = (i + thL l) % b.toNat
    rw [beq_iff_eq, icept_pos_bot, icept_pos_top, th_cond_bot_top hl hb,
      Nat.mod_eq_of_lt hj]
    exact eq_comm
  rw [hbf, htf]
  show (botPt i :: [topPt l ((i + thL l) % b.toNat)]).erase (botPt i) = _
  rw [List.erase_cons_head]

theorem th_line_top_pos {l b : Int} (hl : 1 ≤ l) (hb : 1 ≤ b) {j : Nat} (hj : j < b.toNat) :
    (thKnot l b).line (topPt l j) 1 = [botPt ((j + thCL l b.toNat) % b.toNat)] := by
  have hbn : 0 < b.toNat := by omega
  have hi0 : (j + thCL l b.toNat) % b.toNat < b.toNat := Nat.mod_lt _ hbn
  have hsh : (thL l + thCL l b.toNat) % b.toNat = 0 := add_complement_mod hbn
  show ((thPts l b).filter
      (fun q => icept (2 * b) 1 (topPt l j) == icept (2 * b) 1 q)).erase (topPt l j) = _
  unfold thPts
  rw [List.filter_append]
  have hbf : (thBot b.toNat).filter
      (fun q => icept (2 * b) 1 (topPt l j) == icept (2 * b) 1 q) =
      [botPt ((j + thCL l b.toNat) % b.toNat)] := by
    unfold thBot
    refine filter_map_range_eq_singleton hi0 ?_
    intro i hi
    show (icept (2 * b) 1 (topPt l j) == icept (2 * b) 1 (botPt i)) = true ↔
      i = (j + thCL l b.toNat) % b.toNat
    rw [beq_iff_eq, icept_pos_top, icept_pos_bot, eq_comm, th_cond_bot_top hl hb,
      nat_mod_shift hsh, Nat.mod_eq_of_lt hi]
  have htf : (thTop l b.toNat).filter
      (fun q => icept (2 * b) 1 (topPt l j) == icept (2 * b) 1 q) = [topPt l j] := by
    unfold thTop
    refine filter_map_range_eq_singleton hj ?_
    intro j' hj'
    show (icept (2 * b) 1 (topPt l j) == icept (2 * b) 1 (topPt l j')) = true ↔ j' = j
    rw [beq_iff_eq, icept_pos_top, icept_pos_top, th_cond_top_top hl hb,
      Nat.mod_eq_of_lt hj, Nat.mod_eq_of_lt hj']
    exact eq_comm
  rw [hbf, htf]
  show (botPt ((j + thCL l b.toNat) % b.toNat) :: [topPt l j]).erase (topPt l j) = _
  rw [List.erase_cons_tail, List.erase_cons_head]
  exact (by simp [botPt_ne_topPt hl])

theorem th_line_bot_neg {l b : Int} (hl : 1 ≤ l) (hb : 1 ≤ b) {i : Nat} (hi : i < b.toNat) :
    (thKnot l b).line (botPt i) (-1) = [topPt l ((i + thCLR l b.toNat) % b.toNat)] := by
  have hbn : 0 < b.toNat := by omega
  have hj0 : (i + thCLR l b.toNat) % b.toNat < b.toNat := Nat.mod_lt _ hbn
  have hsh : ((thL l + thR l) + thCLR l b.toNat) % b.toNat = 0 := add_complement_mod hbn
  show ((thPts l b).filter
      (fun q => icept (2 * b) (-1) (botPt i) == icept (2 * b) (-1) q)).erase (botPt i) = _
  unfold thPts
  rw [List.filter_append]
  have hbf : (thBot b.toNat).filter
      (fun q => icept (2 * b) (-1) (botPt i) == icept (2 * b) (-1) q) = [botPt i] := by
    unfold thBot
    refine filter_map_range_eq_singleton hi ?_
    intro i' hi'
    show (icept (2 * b) (-1) (botPt i) == icept (2 * b) (-1) (botPt i')) = true ↔ i' = i
    rw [beq_iff_eq, icept_neg_bot, icept_neg_bot, th_cond_bot_bot hb,
      Nat.mod_eq_of_lt hi, Nat.mod_eq_of_lt hi']
    exact eq_comm
  have htf : (thTop l b.toNat).filter
      (fun q => icept (2 * b) (-1) (botPt i) == icept (2 * b) (-1) q) =
      [topPt l ((i + thCLR l b.toNat) % b.toNat)] := by
    unfold thTop
    refine filter_map_range_eq_singleton hj0 ?_
    intro j hj
    show (icept (2 * b) (-1) (botPt i) == icept (2 * b) (-1) (topPt l j)) = true ↔
      j = (i + thCLR l b.toNat) % b.toNat
    rw [beq_iff_eq, icept_neg_bot, icept_neg_top, th_cond_bot_top_neg hl hb, eq_comm,
      show (j + thL l + thR l) = (j + (thL l + thR l)) from by omega,
      nat_mod_shift hsh, Nat.mod_eq_of_lt hj]
  rw [hbf, htf]
  show (botPt i :: [topPt l ((i + thCLR l b.toNat) % b.toNat)]).erase (botPt i) = _
  rw [List.erase_cons_head]

theorem th_line_top_neg {l b : Int} (hl : 1 ≤ l) (hb : 1 ≤ b) {j : Nat} (hj : j < b.toNat) :
    (thKnot l b).line (topPt l j) (-1) = [botPt ((j + thL l + thR l) % b.toNat)] := by
  have hbn : 0 < b.toNat := by omega
  have hi0 : (j + thL l + thR l) % b.toNat < b.toNat := Nat.mod_lt _ hbn
  show ((thPts l b).filter
      (fun q => icept (2 * b) (-1) (topPt l j) == icept (2 * b) (-1) q)).erase (topPt l j) = _
  unfold thPts
  rw [List.filter_append]
  have hbf : (thBot b.toNat).filter
      (fun q => icept (2 * b) (-1) (topPt l j) == icept (2 * b) (-1) q) =
      [botPt ((j + thL l + thR l) % b.toNat)] := by
    unfold thBot
    refine filter_map_range_eq_singleton hi0 ?_
    intro i hi
    show (icept (2 * b) (-1) (topPt l j) == icept (2 * b) (-1) (botPt i)) = true ↔
      i = (j + thL l + thR l) % b.toNat
    rw [beq_iff_eq, icept_neg_top, icept_neg_bot, eq_comm, th_cond_bot_top_neg hl hb,
      Nat.mod_eq_of_lt hi]
  have htf : (thTop l b.toNat).filter
      (fun q => icept (2 * b) (-1) (topPt l j) == icept (2 * b) (-1) q) = [topPt l j] := by
    unfold thTop
    refine filter_map_range_eq_singleton hj ?_
    intro j' hj'
    show (icept (2 * b) (-1) (topPt l j) == icept (2 * b) (-1) (topPt l j')) = true ↔ j' = j
    rw [beq_iff_eq, icept_neg_top, icept_neg_top, th_cond_top_top_neg hl hb,
      Nat.mod_eq_of_lt hj, Nat.mod_eq_of_lt hj']
    exact eq_comm
  rw [hbf, htf]
  show (botPt ((j + thL l + thR l) % b.toNat) :: [topPt l j]).erase (topPt l j) = _
  rw [List.erase_cons_tail, List.erase_cons_head]
  exact (by simp [botPt_ne_topPt hl])

/-! ## Orbits of the TH circuit index map -/
theorem th_period_iff {ln bn : Nat} (hbn : 0 < bn) :
    ∀ u, bn ∣ u * ln ↔ (bn / Nat.gcd ln bn) ∣ u := by
  intro u
  have hg : 0 < Nat.gcd ln bn := Nat.gcd_pos_of_pos_right _ hbn
  have hbg : Nat.gcd ln bn ∣ bn := Nat.gcd_dvd_right _ _
  have hlg : Nat.gcd ln bn ∣ ln := Nat.gcd_dvd_left _ _
  constructor
  · intro h
    have h1 : (bn / Nat.gcd ln bn) ∣ u * (ln / Nat.gcd ln bn) := by
      rcases h with ⟨c, hc⟩
      refine ⟨c, ?_⟩
      have h2 : Nat.gcd ln bn * (u * (ln / Nat.gcd ln bn)) =
          Nat.gcd ln bn * ((bn / Nat.gcd ln bn) * c) := by
        calc Nat.gcd ln bn * (u * (ln / Nat.gcd ln bn))
            = u * (Nat.gcd ln bn * (ln / Nat.gcd ln bn)) := by ring
          _ = u * ln := by rw [Nat.mul_div_cancel' hlg]
          _ = bn * c := hc
          _ = (Nat.gcd ln bn * (bn / Nat.gcd ln bn)) * c := by rw [Nat.mul_div_cancel' hbg]
          _ = Nat.gcd ln bn * ((bn / Nat.gcd ln bn) * c) := by ring
      exact Nat.eq_of_mul_eq_mul_left hg h2
    have hco : Nat.Coprime (bn / Nat.gcd ln bn) (ln / Nat.gcd ln bn) :=
      (Nat.coprime_div_gcd_div_gcd hg).symm
    exact hco.dvd_of_dvd_mul_right h1
  · rintro ⟨c, rfl⟩
    refine ⟨c * (ln / Nat.gcd ln bn), ?_⟩
    calc (bn / Nat.gcd ln bn) * c * ln
        = (bn / Nat.gcd ln bn) * c * (Nat.gcd ln bn * (ln / Nat.gcd ln bn)) := by
          rw [Nat.mul_div_cancel' hlg]
      _ = ((bn / Nat.gcd ln bn) * Nat.gcd ln bn) * (c * (ln / Nat.gcd ln bn)) := by ring
      _ = bn * (c * (ln / Nat.gcd ln bn)) := by rw [Nat.div_mul_cancel hbg]

theorem class_card {bn g : Nat} (hg : 0 < g) (hdvd : g ∣ bn) (c : Nat) :
    ((Finset.range bn).filter (fun x => x % g = c % g)).card = bn / g := by
  have hset : (Finset.range (bn / g)).image (fun t => c % g + g * t) =
      (Finset.range bn).filter (fun x => x % g = c % g) := by
    ext x
    rw [Finset.mem_image, Finset.mem_filter, Finset.mem_range]
    constructor
    · rintro ⟨t, ht, rfl⟩
      rw [Finset.mem_range] at ht
      constructor
      · have h1 : c % g < g := Nat.mod_lt c hg
        have h2 : g * (t + 1) ≤ g * (bn / g) := Nat.mul_le_mul_left g ht
        have h3 : g * (bn / g) = bn := Nat.mul_div_cancel' hdvd
        have h4 : g * (t + 1) = g * t + g := by ring
        omega
      · rw [Nat.add_mul_mod_self_left, Nat.mod_mod_of_dvd c (dvd_refl g)]
    · rintro ⟨hx, hmod⟩
      refine ⟨x / g, Finset.mem_range.mpr (Nat.div_lt_div_of_lt_of_dvd hdvd hx), ?_⟩
      rw [← hmod]
      exact Nat.mod_add_div x g
  rw [← hset]
  rw [Finset.card_image_of_injective _ (fun s t hst => by
    have h4 : g * s = g * t := by omega
    exact Nat.eq_of_mul_eq_mul_left hg h4)]
  exact Finset.card_range _

theorem orbit_eq_class {bn g a m0 : Nat} (hbn : 0 < bn) (hg : 0 < g)
    (hgbn : g ∣ bn) (hga : g ∣ a) (hm0 : m0 = bn / g)
    (hper : ∀ u, bn ∣ u * a ↔ m0 ∣ u) (k0 : Nat) (x : Nat) :
    (∃ u, u < m0 ∧ (k0 + u * a) % bn = x) ↔ (x < bn ∧ x % g = k0 % g) := by
  have hm0pos : 0 < m0 := by
    rw [hm0]
    exact Nat.div_pos (Nat.le_of_dvd hbn hgbn) hg
  have himg : (Finset.range m0).image (fun u => (k0 + u * a) % bn) =
      (Finset.range bn).filter (fun x => x % g = k0 % g) := by
    apply Finset.eq_of_subset_of_card_le
    · intro y hy
      rcases Finset.mem_image.mp hy with ⟨u, hu, rfl⟩
      rw [Finset.mem_filter, Finset.mem_range]
      constructor
      · exact Nat.mod_lt _ hbn
      · rw [Nat.mod_mod_of_dvd _ hgbn]
        rcases hga with ⟨a', rfl⟩
        have h5 : k0 + u * (g * a') = k0 + g * (u * a') := by ring
        rw [h5, Nat.add_mul_mod_self_left]
    · rw [class_card hg hgbn k0]
      have hinj : Set.InjOn (fun u => (k0 + u * a) % bn) (Finset.range m0) := by
        intro s hs t ht hst
        rw [Finset.coe_range, Set.mem_Iio] at hs ht
        rcases Nat.lt_trichotomy s t with hlt | heq | hlt
        · exfalso
          have hmeq : (k0 + s * a) ≡ (k0 + t * a) [MOD bn] := hst
          have h6 : s * a ≡ t * a [MOD bn] := Nat.ModEq.add_left_cancel' k0 hmeq
          have h7 : bn ∣ t * a - s * a := (Nat.modEq_iff_dvd' (Nat.mul_le_mul_right a (le_of_lt hlt))).mp h6
          have h8 : t * a - s * a = (t - s) * a := by
            rw [Nat.sub_mul]
          rw [h8] at h7
          have h9 : m0 ∣ (t - s) := (hper _).mp h7
          have h10 : t - s = 0 := Nat.eq_zero_of_dvd_of_lt h9 (by omega)
          omega
        · exact heq
        · exfalso
          have hmeq : (k0 + t * a) ≡ (k0 + s * a) [MOD bn] := hst.symm
          have h6 : t * a ≡ s * a [MOD bn] := Nat.ModEq.add_left_cancel' k0 hmeq
          have h7 : bn ∣ s * a - t * a := (Nat.modEq_iff_dvd' (Nat.mul_le_mul_right a (le_of_lt hlt))).mp h6
          have h8 : s * a - t * a = (s - t) * a := by
            rw [Nat.sub_mul]
          rw [h8] at h7
          have h9 : m0 ∣ (s - t) := (hper _).mp h7
          have h10 : s - t = 0 := Nat.eq_zero_of_dvd_of_lt h9 (by omega)
          omega
      rw [Finset.card_image_of_injOn hinj, Finset.card_range, hm0]
  constructor
  · rintro ⟨u, hu, rfl⟩
    have hy : ((k0 + u * a) % bn) ∈ (Finset.range bn).filter (fun x => x % g = k0 % g) := by
      rw [← himg]
      exact Finset.mem_image.mpr ⟨u, Finset.mem_range.mpr hu, rfl⟩
    rw [Finset.mem_filter, Finset.mem_range] at hy
    exact hy
  · intro hx
    have hy : x ∈ (Finset.range bn).filter (fun x => x % g = k0 % g) := by
      rw [Finset.mem_filter, Finset.mem_range]
      exact hx
    rw [← himg] at hy
    rcases Finset.mem_image.mp hy with ⟨u, hu, hux⟩
    exact ⟨u, Finset.mem_range.mp hu, hux⟩

theorem botPt_mem_thPts {l b : Int} {i : Nat} (hi : i < b.toNat) : botPt i ∈ thPts l b :=
  mem_thPts.mpr (Or.inl ⟨i, hi, rfl⟩)

theorem topPt_mem_thPts {l b : Int} {j : Nat} (hj : j < b.toNat) : topPt l j ∈ thPts l b :=
  mem_thPts.mpr (Or.inr ⟨j, hj, rfl⟩)

theorem th_step_bot_pos {l b : Int} (hl : 1 ≤ l) (hb : 1 ≤ b) {i : Nat} (hi : i < b.toNat) :
    stepFn (thKnot l b) (botPt i) 1 = some (topPt l ((i + thL l) % b.toNat)) := by
  unfold stepFn
  rw [th_line_bot_pos hl hb hi]

theorem th_step_top_pos {l b : Int} (hl : 1 ≤ l) (hb : 1 ≤ b) {j : Nat} (hj : j < b.toNat) :
    stepFn (thKnot l b) (topPt l j) 1 = some (botPt ((j + thCL l b.toNat) % b.toNat)) := by
  unfold stepFn
  rw [th_line_top_pos hl hb hj]

theorem th_step_bot_neg {l b : Int} (hl : 1 ≤ l) (hb : 1 ≤ b) {i : Nat} (hi : i < b.toNat) :
    stepFn (thKnot l b) (botPt i) (-1) = some (topPt l ((i + thCLR l b.toNat) % b.toNat)) := by
  unfold stepFn
  rw [th_line_bot_neg hl hb hi]

theorem th_step_top_neg {l b : Int} (hl : 1 ≤ l) (hb : 1 ≤ b) {j : Nat} (hj : j < b.toNat) :
    stepFn (thKnot l b) (topPt l j) (-1) = some (botPt ((j + thL l + thR l) % b.toNat)) := by
  unfold stepFn
  rw [th_line_top_neg hl hb hj]

theorem th_iter_bot {l b : Int} (hl : 1 ≤ l) (hb : 1 ≤ b) {k0 : Nat} (hk0 : k0 < b.toNat) :
    ∀ t, iterSt (thKnot l b) (botPt k0) t =
      some (if t % 2 = 0 then botPt ((k0 + (t / 2) * l.toNat) % b.toNat)
            else topPt l ((k0 + (t / 2) * l.toNat + thL l) % b.toNat), dAt t) := by
  have hbn : 0 < b.toNat := by omega
  intro t
  induction t with
  | zero =>
    rw [iterSt_zero]
    have h0 : (k0 + 0 / 2 * l.toNat) % b.toNat = k0 := by
      have h1 : k0 + 0 / 2 * l.toNat = k0 := by omega
      rw [h1, Nat.mod_eq_of_lt hk0]
    rw [if_pos rfl, h0, dAt_zero]
  | succ t ih =>
    rw [iterSt_succ, ih]
    by_cases hpar : t % 2 = 0
    · have hd : dAt t = 1 := by
        unfold dAt
        rw [if_pos hpar]
      have hpar1 : (t + 1) % 2 ≠ 0 := by omega
      rw [if_pos hpar, hd]
      show (stepFn (thKnot l b) (botPt ((k0 + t / 2 * l.toNat) % b.toNat)) 1).map
        (fun q => (q, -(1 : Int))) = _
      rw [th_step_bot_pos hl hb (Nat.mod_lt _ hbn)]
      show some (topPt l (((k0 + t / 2 * l.toNat) % b.toNat + thL l) % b.toNat), -(1 : Int)) = _
      have hj : ((k0 + t / 2 * l.toNat) % b.toNat + thL l) % b.toNat =
          (k0 + (t + 1) / 2 * l.toNat + thL l) % b.toNat := by
        rw [Nat.mod_add_mod]
        have h7 : (t + 1) / 2 = t / 2 := by omega
        rw [h7]
      rw [hj, if_neg hpar1, dAt_succ, hd]
    · have hd : dAt t = -1 := by
        unfold dAt
        rw [if_neg hpar]
      have hpar1 : (t + 1) % 2 = 0 := by omega
      rw [if_neg hpar, hd]
      show (stepFn (thKnot l b) (topPt l ((k0 + t / 2 * l.toNat + thL l) % b.toNat)) (-1)).map
        (fun q => (q, -(-1 : Int))) = _
      rw [th_step_top_neg hl hb (Nat.mod_lt _ hbn)]
      show some (botPt (((k0 + t / 2 * l.toNat + thL l) % b.toNat + thL l + thR l) % b.toNat),
        -(-1 : Int)) = _
      have hj : ((k0 + t / 2 * l.toNat + thL l) % b.toNat + thL l + thR l) % b.toNat =
          (k0 + (t + 1) / 2 * l.toNat) % b.toNat := by
        rw [show ((k0 + t / 2 * l.toNat + thL l) % b.toNat + thL l + thR l) =
            ((k0 + t / 2 * l.toNat + thL l) % b.toNat + (thL l + thR l)) from by omega]
        rw [Nat.mod_add_mod]
        congr 1
        have h7 : (t + 1) / 2 = t / 2 + 1 := by omega
        rw [h7, Nat.succ_mul]
        have h8 : l.toNat = 2 * thL l + thR l := by
          unfold thL thR
          omega
        omega
      rw [hj, if_pos hpar1, dAt_succ, hd]

theorem th_iter_top {l b : Int} (hl : 1 ≤ l) (hb : 1 ≤ b) {j0 : Nat} (hj0 : j0 < b.toNat) :
    ∀ t, iterSt (thKnot l b) (topPt l j0) t =
      some (if t % 2 = 0 then topPt l ((j0 + (t / 2) * thStepT l b.toNat) % b.toNat)
            else botPt ((j0 + (t / 2) * thStepT l b.toNat + thCL l b.toNat) % b.toNat), dAt t) := by
  have hbn : 0 < b.toNat := by omega
  intro t
  induction t with
  | zero =>
    rw [iterSt_zero]
    have h0 : (j0 + 0 / 2 * thStepT l b.toNat) % b.toNat = j0 := by
      have h1 : j0 + 0 / 2 * thStepT l b.toNat = j0 := by omega
      rw [h1, Nat.mod_eq_of_lt hj0]
    rw [if_pos rfl, h0, dAt_zero]
  | succ t ih =>
    rw [iterSt_succ, ih]
    by_cases hpar : t % 2 = 0
    · have hd : dAt t = 1 := by
        unfold dAt
        rw [if_pos hpar]
      have hpar1 : (t + 1) % 2 ≠ 0 := by omega
      rw [if_pos hpar, hd]
      show (stepFn (thKnot l b) (topPt l ((j0 + t / 2 * thStepT l b.toNat) % b.toNat)) 1).map
        (fun q => (q, -(1 : Int))) = _
      rw [th_step_top_pos hl hb (Nat.mod_lt _ hbn)]
      show some (botPt (((j0 + t / 2 * thStepT l b.toNat) % b.toNat + thCL l b.toNat) % b.toNat),
        -(1 : Int)) = _
      have hj : ((j0 + t / 2 * thStepT l b.toNat) % b.toNat + thCL l b.toNat) % b.toNat =
          (j0 + (t + 1) / 2 * thStepT l b.toNat + thCL l b.toNat) % b.toNat := by
        rw [Nat.mod_add_mod]
        have h7 : (t + 1) / 2 = t / 2 := by omega
        rw [h7]
      rw [hj, if_neg hpar1, dAt_succ, hd]
    · have hd : dAt t = -1 := by
        unfold dAt
        rw [if_neg hpar]
      have hpar1 : (t + 1) % 2 = 0 := by omega
      rw [if_neg hpar, hd]
      show (stepFn (thKnot l b)
        (botPt ((j0 + t / 2 * thStepT l b.toNat + thCL l b.toNat) % b.toNat)) (-1)).map
        (fun q => (q, -(-1 : Int))) = _
      rw [th_step_bot_neg hl hb (Nat.mod_lt _ hbn)]
      show some (topPt l (((j0 + t / 2 * thStepT l b.toNat + thCL l b.toNat) % b.toNat +
        thCLR l b.toNat) % b.toNat), -(-1 : Int)) = _
      have hj : ((j0 + t / 2 * thStepT l b.toNat + thCL l b.toNat) % b.toNat +
          thCLR l b.toNat) % b.toNat =
          (j0 + (t + 1) / 2 * thStepT l b.toNat) % b.toNat := by
        rw [Nat.mod_add_mod]
        congr 1
        have h7 : (t + 1) / 2 = t / 2 + 1 := by omega
        rw [h7, Nat.succ_mul]
        have h8 : thStepT l b.toNat = thCL l b.toNat + thCLR l b.toNat := rfl
        omega
      rw [hj, if_pos hpar1, dAt_succ, hd]

theorem th_pAt_bot {l b : Int} (hl : 1 ≤ l) (hb : 1 ≤ b) {k0 : Nat} (hk0 : k0 < b.toNat)
    (t : Nat) :
    pAt (thKnot l b) (botPt k0) t =
      if t % 2 = 0 then botPt ((k0 + (t / 2) * l.toNat) % b.toNat)
      else topPt l ((k0 + (t / 2) * l.toNat + thL l) % b.toNat) := by
  unfold pAt
  rw [th_iter_bot hl hb hk0 t]
  rfl

theorem th_pAt_top {l b : Int} (hl : 1 ≤ l) (hb : 1 ≤ b) {j0 : Nat} (hj0 : j0 < b.toNat)
    (t : Nat) :
    pAt (thKnot l b) (topPt l j0) t =
      if t % 2 = 0 then topPt l ((j0 + (t / 2) * thStepT l b.toNat) % b.toNat)
      else botPt ((j0 + (t / 2) * thStepT l b.toNat + thCL l b.toNat) % b.toNat) := by
  unfold pAt
  rw [th_iter_top hl hb hj0 t]
  rfl

theorem th_stepT_add {l : Int} {bn : Nat} (hl : 1 ≤ l) (hbn : 0 < bn) :
    (thStepT l bn + l.toNat) % bn = 0 := by
  unfold thStepT thCL thCLR
  have e1 := Nat.div_add_mod (thL l) bn
  have e2 := Nat.div_add_mod (thL l + thR l) bn
  have m1 : thL l % bn < bn := Nat.mod_lt _ hbn
  have m2 : (thL l + thR l) % bn < bn := Nat.mod_lt _ hbn
  have h8 : l.toNat = 2 * thL l + thR l := by
    unfold thL thR
    omega
  have h3 : (bn - thL l % bn) + (bn - (thL l + thR l) % bn) + l.toNat =
      bn * (thL l / bn) + bn * ((thL l + thR l) / bn) + bn + bn := by omega
  rw [h3]
  have h4 : bn * (thL l / bn) + bn * ((thL l + thR l) / bn) + bn + bn =
      bn * (thL l / bn + (thL l + thR l) / bn + 2) := by ring
  rw [h4]
  exact Nat.mul_mod_right _ _

theorem th_period_T {l : Int} {bn : Nat} (hl : 1 ≤ l) (hbn : 0 < bn) :
    ∀ u, bn ∣ u * thStepT l bn ↔ (bn / Nat.gcd l.toNat bn) ∣ u := by
  intro u
  have hkey : bn ∣ (thStepT l bn + l.toNat) := Nat.dvd_of_mod_eq_zero (th_stepT_add hl hbn)
  have htot : bn ∣ u * (thStepT l bn + l.toNat) := Dvd.dvd.mul_left hkey u
  constructor
  · intro h
    have h3 : u * (thStepT l bn + l.toNat) = u * thStepT l bn + u * l.toNat := by ring
    rw [h3] at htot
    have h5 := Nat.dvd_sub' htot h
    have h4 : u * thStepT l bn + u * l.toNat - u * thStepT l bn = u * l.toNat := by omega
    rw [h4] at h5
    exact (th_period_iff hbn u).mp h5
  · intro h
    have h2 : bn ∣ u * l.toNat := (th_period_iff hbn u).mpr h
    have h3 : u * (thStepT l bn + l.toNat) = u * thStepT l bn + u * l.toNat := by ring
    rw [h3] at htot
    have h5 := Nat.dvd_sub' htot h2
    have h4 : u * thStepT l bn + u * l.toNat - u * l.toNat = u * thStepT l bn := by omega
    rwa [h4] at h5

theorem th_g_dvd_stepT {l : Int} {bn : Nat} (hl : 1 ≤ l) (hbn : 0 < bn) :
    Nat.gcd l.toNat bn ∣ thStepT l bn := by
  have hkey : bn ∣ (thStepT l bn + l.toNat) := Nat.dvd_of_mod_eq_zero (th_stepT_add hl hbn)
  have h1 : Nat.gcd l.toNat bn ∣ (thStepT l bn + l.toNat) :=
    dvd_trans (Nat.gcd_dvd_right _ _) hkey
  have h2 : Nat.gcd l.toNat bn ∣ l.toNat := Nat.gcd_dvd_left _ _
  have h3 := Nat.dvd_sub' h1 h2
  have h4 : thStepT l bn + l.toNat - l.toNat = thStepT l bn := by omega
  rwa [h4] at h3

theorem th_run_bot {l b : Int} (hl : 1 ≤ l) (hb : 1 ≤ b) {k0 : Nat} (hk0 : k0 < b.toNat) :
    CircRun (thKnot l b) (botPt k0) (2 * (b.toNat / Nat.gcd l.toNat b.toNat)) := by
  have hbn : 0 < b.toNat := by omega
  have hg : 0 < Nat.gcd l.toNat b.toNat := Nat.gcd_pos_of_pos_right _ hbn
  have hgbn : Nat.gcd l.toNat b.toNat ∣ b.toNat := Nat.gcd_dvd_right _ _
  have hm0 : 0 < b.toNat / Nat.gcd l.toNat b.toNat :=
    Nat.div_pos (Nat.le_of_dvd hbn hgbn) hg
  refine ⟨by omega, ?_, ?_, ?_⟩
  · intro u hu
    rw [th_iter_bot hl hb hk0 u]
    rfl
  · rw [th_pAt_bot hl hb hk0]
    have hpar : (2 * (b.toNat / Nat.gcd l.toNat b.toNat)) % 2 = 0 := by omega
    rw [if_pos hpar]
    have hdiv : (2 * (b.toNat / Nat.gcd l.toNat b.toNat)) / 2 =
        b.toNat / Nat.gcd l.toNat b.toNat := by omega
    rw [hdiv]
    obtain ⟨c, hc⟩ : b.toNat ∣ (b.toNat / Nat.gcd l.toNat b.toNat) * l.toNat :=
      (th_period_iff hbn _).mpr dvd_rfl
    rw [hc, Nat.add_mul_mod_self_left, Nat.mod_eq_of_lt hk0]
  · intro u hu0 huT
    by_cases hpar : u % 2 = 0
    · rw [th_pAt_bot hl hb hk0, if_pos hpar]
      intro hcon
      have hidx : (k0 + u / 2 * l.toNat) % b.toNat = k0 := by
        have h2 : botPt ((k0 + u / 2 * l.toNat) % b.toNat) = botPt k0 := hcon
        unfold botPt at h2
        rw [Prod.mk.injEq] at h2
        omega
      have hX : b.toNat ∣ u / 2 * l.toNat := by
        have hmeq : k0 + u / 2 * l.toNat ≡ k0 + 0 [MOD b.toNat] := by
          show (k0 + u / 2 * l.toNat) % b.toNat = (k0 + 0) % b.toNat
          rw [hidx, Nat.add_zero, Nat.mod_eq_of_lt hk0]
        have h3 : u / 2 * l.toNat ≡ 0 [MOD b.toNat] := Nat.ModEq.add_left_cancel' k0 hmeq
        exact Nat.modEq_zero_iff_dvd.mp h3
      have h4 : (b.toNat / Nat.gcd l.toNat b.toNat) ∣ u / 2 := (th_period_iff hbn _).mp hX
      have h5 : u / 2 ≠ 0 := by omega
      have h6 : u / 2 < b.toNat / Nat.gcd l.toNat b.toNat := by omega
      have h7 := Nat.eq_zero_of_dvd_of_lt h4 h6
      omega
    · rw [th_pAt_bot hl hb hk0, if_neg hpar]
      intro hcon
      exact botPt_ne_topPt hl k0 _ hcon.symm

theorem th_run_top {l b : Int} (hl : 1 ≤ l) (hb : 1 ≤ b) {j0 : Nat} (hj0 : j0 < b.toNat) :
    CircRun (thKnot l b) (topPt l j0) (2 * (b.toNat / Nat.gcd l.toNat b.toNat)) := by
  have hbn : 0 < b.toNat := by omega
  have hg : 0 < Nat.gcd l.toNat b.toNat := Nat.gcd_pos_of_pos_right _ hbn
  have hgbn : Nat.gcd l.toNat b.toNat ∣ b.toNat := Nat.gcd_dvd_right _ _
  have hm0 : 0 < b.toNat / Nat.gcd l.toNat b.toNat :=
    Nat.div_pos (Nat.le_of_dvd hbn hgbn) hg
  refine ⟨by omega, ?_, ?_, ?_⟩
  · intro u hu
    rw [th_iter_top hl hb hj0 u]
    rfl
  · rw [th_pAt_top hl hb hj0]
    have hpar : (2 * (b.toNat / Nat.gcd l.toNat b.toNat)) % 2 = 0 := by omega
    rw [if_pos hpar]
    have hdiv : (2 * (b.toNat / Nat.gcd l.toNat b.toNat)) / 2 =
        b.toNat / Nat.gcd l.toNat b.toNat := by omega
    rw [hdiv]
    obtain ⟨c, hc⟩ : b.toNat ∣ (b.toNat / Nat.gcd l.toNat b.toNat) * thStepT l b.toNat :=
      (th_period_T hl hbn _).mpr dvd_rfl
    rw [hc, Nat.add_mul_mod_self_left, Nat.mod_eq_of_lt hj0]
  · intro u hu0 huT
    by_cases hpar : u % 2 = 0
    · rw [th_pAt_top hl hb hj0, if_pos hpar]
      intro hcon
      have hidx : (j0 + u / 2 * thStepT l b.toNat) % b.toNat = j0 := by
        have h2 : topPt l ((j0 + u / 2 * thStepT l b.toNat) % b.toNat) = topPt l j0 := hcon
        unfold topPt at h2
        rw [Prod.mk.injEq] at h2
        omega
      have hX : b.toNat ∣ u / 2 * thStepT l b.toNat := by
        have hmeq : j0 + u / 2 * thStepT l b.toNat ≡ j0 + 0 [MOD b.toNat] := by
          show (j0 + u / 2 * thStepT l b.toNat) % b.toNat = (j0 + 0) % b.toNat
          rw [hidx, Nat.add_zero, Nat.mod_eq_of_lt hj0]
        have h3 : u / 2 * thStepT l b.toNat ≡ 0 [MOD b.toNat] :=
          Nat.ModEq.add_left_cancel' j0 hmeq
        exact Nat.modEq_zero_iff_dvd.mp h3
      have h4 : (b.toNat / Nat.gcd l.toNat b.toNat) ∣ u / 2 := (th_period_T hl hbn _).mp hX
      have h5 : u / 2 ≠ 0 := by omega
      have h6 : u / 2 < b.toNat / Nat.gcd l.toNat b.toNat := by omega
      have h7 := Nat.eq_zero_of_dvd_of_lt h4 h6
      omega
    · rw [th_pAt_top hl hb hj0, if_neg hpar]
      intro hcon
      exact botPt_ne_topPt hl _ j0 hcon

theorem th_circuit_bot {l b : Int} (hl : 1 ≤ l) (hb : 1 ≤ b) {k0 : Nat} (hk0 : k0 < b.toNat) :
    (thKnot l b).circuit (botPt k0) =
      .ok ((List.range (2 * (b.toNat / Nat.gcd l.toNat b.toNat))).map
        (pAt (thKnot l b) (botPt k0))) := by
  refine circuit_of_run (botPt_mem_thPts hk0) (th_run_bot hl hb hk0) ?_
  show 2 * (b.toNat / Nat.gcd l.toNat b.toNat) ≤ 2 * (thPts l b).length + 1
  rw [thPts_length]
  have h1 := Nat.div_le_self b.toNat (Nat.gcd l.toNat b.toNat)
  omega

theorem th_circuit_top {l b : Int} (hl : 1 ≤ l) (hb : 1 ≤ b) {j0 : Nat} (hj0 : j0 < b.toNat) :
    (thKnot l b).circuit (topPt l j0) =
      .ok ((List.range (2 * (b.toNat / Nat.gcd l.toNat b.toNat))).map
        (pAt (thKnot l b) (topPt l j0))) := by
  refine circuit_of_run (topPt_mem_thPts hj0) (th_run_top hl hb hj0) ?_
  show 2 * (b.toNat / Nat.gcd l.toNat b.toNat) ≤ 2 * (thPts l b).length + 1
  rw [thPts_length]
  have h1 := Nat.div_le_self b.toNat (Nat.gcd l.toNat b.toNat)
  omega

theorem th_trace_bot_mem {l b : Int} (hl : 1 ≤ l) (hb : 1 ≤ b) {k0 : Nat} (hk0 : k0 < b.toNat)
    (q : Pt) :
    q ∈ (List.range (2 * (b.toNat / Nat.gcd l.toNat b.toNat))).map
        (pAt (thKnot l b) (botPt k0)) ↔
      ((∃ i ∈ Finset.range b.toNat,
          i % Nat.gcd l.toNat b.toNat = k0 % Nat.gcd l.toNat b.toNat ∧ q = botPt i) ∨
       (∃ j ∈ Finset.range b.toNat,
          j % Nat.gcd l.toNat b.toNat = (k0 + thL l) % Nat.gcd l.toNat b.toNat ∧
            q = topPt l j)) := by
  have hbn : 0 < b.toNat := by omega
  have hg : 0 < Nat.gcd l.toNat b.toNat := Nat.gcd_pos_of_pos_right _ hbn
  have hgbn : Nat.gcd l.toNat b.toNat ∣ b.toNat := Nat.gcd_dvd_right _ _
  have hgl : Nat.gcd l.toNat b.toNat ∣ l.toNat := Nat.gcd_dvd_left _ _
  have horb := fun (c0 : Nat) (x : Nat) =>
    orbit_eq_class hbn hg hgbn hgl rfl (th_period_iff hbn) c0 x
  rw [List.mem_map]
  constructor
  · rintro ⟨t, ht, rfl⟩
    rw [List.mem_range] at ht
    rw [th_pAt_bot hl hb hk0 t]
    by_cases hpar : t % 2 = 0
    · rw [if_pos hpar]
      left
      have hex : ∃ u, u < b.toNat / Nat.gcd l.toNat b.toNat ∧
          (k0 + u * l.toNat) % b.toNat = (k0 + t / 2 * l.toNat) % b.toNat :=
        ⟨t / 2, by omega, rfl⟩
      have hcls := (horb k0 _).mp hex
      exact ⟨_, Finset.mem_range.mpr hcls.1, hcls.2, rfl⟩
    · rw [if_neg hpar]
      right
      have hex : ∃ u, u < b.toNat / Nat.gcd l.toNat b.toNat ∧
          ((k0 + thL l) + u * l.toNat) % b.toNat =
            (k0 + t / 2 * l.toNat + thL l) % b.toNat :=
        ⟨t / 2, by omega, by
          rw [show ((k0 + thL l) + t / 2 * l.toNat) = (k0 + t / 2 * l.toNat + thL l) from by
            omega]⟩
      have hcls := (horb (k0 + thL l) _).mp hex
      exact ⟨_, Finset.mem_range.mpr hcls.1, hcls.2, rfl⟩
  · rintro (⟨i, hi, hmod, rfl⟩ | ⟨j, hj, hmod, rfl⟩)
    · rw [Finset.mem_range] at hi
      obtain ⟨u, hu, hui⟩ := (horb k0 i).mpr ⟨hi, hmod⟩
      refine ⟨2 * u, List.mem_range.mpr (by omega), ?_⟩
      rw [th_pAt_bot hl hb hk0, if_pos (by omega)]
      rw [show (2 * u) / 2 = u from by omega, hui]
    · rw [Finset.mem_range] at hj
      obtain ⟨u, hu, hui⟩ := (horb (k0 + thL l) j).mpr ⟨hj, hmod⟩
      refine ⟨2 * u + 1, List.mem_range.mpr (by omega), ?_⟩
      rw [th_pAt_bot hl hb hk0, if_neg (by omega)]
      rw [show (2 * u + 1) / 2 = u from by omega]
      rw [show (k0 + u * l.toNat + thL l) = ((k0 + thL l) + u * l.toNat) from by omega, hui]

theorem th_trace_top_mem {l b : Int} (hl : 1 ≤ l) (hb : 1 ≤ b) {j0 : Nat} (hj0 : j0 < b.toNat)
    (q : Pt) :
    q ∈ (List.range (2 * (b.toNat / Nat.gcd l.toNat b.toNat))).map
        (pAt (thKnot l b) (topPt l j0)) ↔
      ((∃ i ∈ Finset.range b.toNat,
          i % Nat.gcd l.toNat b.toNat =
            (j0 + thCL l b.toNat) % Nat.gcd l.toNat b.toNat ∧ q = botPt i) ∨
       (∃ j ∈ Finset.range b.toNat,
          j % Nat.gcd l.toNat b.toNat = j0 % Nat.gcd l.toNat b.toNat ∧ q = topPt l j)) := by
  have hbn : 0 < b.toNat := by omega
  have hg : 0 < Nat.gcd l.toNat b.toNat := Nat.gcd_pos_of_pos_right _ hbn
  have hgbn : Nat.gcd l.toNat b.toNat ∣ b.toNat := Nat.gcd_dvd_right _ _
  have hgs : Nat.gcd l.toNat b.toNat ∣ thStepT l b.toNat := th_g_dvd_stepT hl hbn
  have horb := fun (c0 : Nat) (x : Nat) =>
    orbit_eq_class hbn hg hgbn hgs rfl (th_period_T hl hbn) c0 x
  rw [List.mem_map]
  constructor
  · rintro ⟨t, ht, rfl⟩
    rw [List.mem_range] at ht
    rw [th_pAt_top hl hb hj0 t]
    by_cases hpar : t % 2 = 0
    · rw [if_pos hpar]
      right
      have hex : ∃ u, u < b.toNat / Nat.gcd l.toNat b.toNat ∧
          (j0 + u * thStepT l b.toNat) % b.toNat =
            (j0 + t / 2 * thStepT l b.toNat) % b.toNat :=
        ⟨t / 2, by omega, rfl⟩
      have hcls := (horb j0 _).mp hex
      exact ⟨_, Finset.mem_range.mpr hcls.1, hcls.2, rfl⟩
    · rw [if_neg hpar]
      left
      have hex : ∃ u, u < b.toNat / Nat.gcd l.toNat b.toNat ∧
          ((j0 + thCL l b.toNat) + u * thStepT l b.toNat) % b.toNat =
            (j0 + t / 2 * thStepT l b.toNat + thCL l b.toNat) % b.toNat :=
        ⟨t / 2, by omega, by
          rw [show ((j0 + thCL l b.toNat) + t / 2 * thStepT l b.toNat) =
            (j0 + t / 2 * thStepT l b.toNat + thCL l b.toNat) from by omega]⟩
      have hcls := (horb (j0 + thCL l b.toNat) _).mp hex
      exact ⟨_, Finset.mem_range.mpr hcls.1, hcls.2, rfl⟩
  · rintro (⟨i, hi, hmod, rfl⟩ | ⟨j, hj, hmod, rfl⟩)
    · rw [Finset.mem_range] at hi
      obtain ⟨u, hu, hui⟩ := (horb (j0 + thCL l b.toNat) i).mpr ⟨hi, hmod⟩
      refine ⟨2 * u + 1, List.mem_range.mpr (by omega), ?_⟩
      rw [th_pAt_top hl hb hj0, if_neg (by omega)]
      rw [show (2 * u + 1) / 2 = u from by omega]
      rw [show (j0 + u * thStepT l b.toNat + thCL l b.toNat) =
        ((j0 + thCL l b.toNat) + u * thStepT l b.toNat) from by omega, hui]
    · rw [Finset.mem_range] at hj
      obtain ⟨u, hu, hui⟩ := (horb j0 j).mpr ⟨hj, hmod⟩
      refine ⟨2 * u, List.mem_range.mpr (by omega), ?_⟩
      rw [th_pAt_top hl hb hj0, if_pos (by omega)]
      rw [show (2 * u) / 2 = u from by omega, hui]

theorem contains_eq_false_iff {lst : List Pt} {q : Pt} :
    (lst.contains q = false) ↔ q ∉ lst := by
  constructor
  · intro h hq
    have h2 : lst.contains q = true := List.elem_iff.mpr hq
    rw [h] at h2
    cases h2
  · intro h
    cases hc : lst.contains q
    · rfl
    · exact absurd (List.elem_iff.mp hc) h

theorem bool_eq_of_iff {a c : Bool} (h : a = true ↔ c = true) : a = c := by
  cases a
  · cases c
    · rfl
    · exact absurd (h.mpr rfl) (by simp)
  · rw [h.mp rfl]

theorem th_class_add_complement {l b : Int} (hl : 1 ≤ l) (hb : 1 ≤ b) (x : Nat) :
    (x + (thL l + thCL l b.toNat)) % Nat.gcd l.toNat b.toNat =
      x % Nat.gcd l.toNat b.toNat := by
  have hbn : 0 < b.toNat := by omega
  have hgbn : Nat.gcd l.toNat b.toNat ∣ b.toNat := Nat.gcd_dvd_right _ _
  have hgdvd : Nat.gcd l.toNat b.toNat ∣ (thL l + thCL l b.toNat) :=
    dvd_trans hgbn (Nat.dvd_of_mod_eq_zero (add_complement_mod hbn))
  rcases hgdvd with ⟨w, hw⟩
  rw [hw]
  exact Nat.add_mul_mod_self_left x _ w

theorem th_class_disjoint {l b : Int} (hl : 1 ≤ l) (hb : 1 ≤ b) {c c' : Nat} {q : Pt}
    (h1 : thClass l b.toNat (Nat.gcd l.toNat b.toNat) c q = true)
    (h2 : thClass l b.toNat (Nat.gcd l.toNat b.toNat) c' q = true) :
    c % Nat.gcd l.toNat b.toNat = c' % Nat.gcd l.toNat b.toNat := by
  unfold thClass at h1 h2
  rw [decide_eq_true_iff] at h1 h2
  rcases h1 with ⟨i, hi, hmi, rfl⟩ | ⟨j, hj, hmj, rfl⟩
  · rcases h2 with ⟨i', hi', hmi', hqi⟩ | ⟨j', hj', hmj', hqi⟩
    · have hii : i = i' := by
        unfold botPt at hqi
        rw [Prod.mk.injEq] at hqi
        omega
      subst hii
      rw [← hmi, ← hmi']
    · exact absurd hqi (botPt_ne_topPt hl i j')
  · rcases h2 with ⟨i', hi', hmi', hqi⟩ | ⟨j', hj', hmj', hqi⟩
    · exact absurd hqi.symm (botPt_ne_topPt hl i' j)
    · have hjj : j = j' := by
        unfold topPt at hqi
        rw [Prod.mk.injEq] at hqi
        omega
      subst hjj
      have hcc : (c + thL l) % Nat.gcd l.toNat b.toNat =
          (c' + thL l) % Nat.gcd l.toNat b.toNat := by
        rw [← hmj, ← hmj']
      exact Nat.ModEq.add_right_cancel' (thL l) hcc

theorem th_trace_class {l b : Int} (hl : 1 ≤ l) (hb : 1 ≤ b) {c : Nat} {start : Pt}
    (hstart : thClass l b.toNat (Nat.gcd l.toNat b.toNat) c start = true) :
    ∃ current, (thKnot l b).circuit start = .ok current ∧
      ∀ q, (q ∈ current ↔
        thClass l b.toNat (Nat.gcd l.toNat b.toNat) c q = true) := by
  unfold thClass at hstart
  rw [decide_eq_true_iff] at hstart
  rcases hstart with ⟨i, hi, hmod, rfl⟩ | ⟨j, hj, hmod, rfl⟩
  · rw [Finset.mem_range] at hi
    refine ⟨_, th_circuit_bot hl hb hi, ?_⟩
    intro q
    rw [th_trace_bot_mem hl hb hi q]
    unfold thClass
    rw [decide_eq_true_iff]
    constructor
    · rintro (⟨i', hi', hm', rfl⟩ | ⟨j', hj', hm', rfl⟩)
      · exact Or.inl ⟨i', hi', hm'.trans hmod, rfl⟩
      · exact Or.inr ⟨j', hj', hm'.trans (Nat.ModEq.add_right (thL l) hmod), rfl⟩
    · rintro (⟨i', hi', hm', rfl⟩ | ⟨j', hj', hm', rfl⟩)
      · exact Or.inl ⟨i', hi', hm'.trans hmod.symm, rfl⟩
      · exact Or.inr ⟨j', hj', hm'.trans (Nat.ModEq.add_right (thL l) hmod.symm), rfl⟩
  · rw [Finset.mem_range] at hj
    refine ⟨_, th_circuit_top hl hb hj, ?_⟩
    intro q
    rw [th_trace_top_mem hl hb hj q]
    unfold thClass
    rw [decide_eq_true_iff]
    have hkey : (j + thCL l b.toNat) % Nat.gcd l.toNat b.toNat =
        c % Nat.gcd l.toNat b.toNat := by
      have h1 : (j + thCL l b.toNat) ≡ ((c + thL l) + thCL l b.toNat)
          [MOD Nat.gcd l.toNat b.toNat] := Nat.ModEq.add_right _ hmod
      have h2 : ((c + thL l) + thCL l b.toNat) = (c + (thL l + thCL l b.toNat)) := by omega
      have h3 := th_class_add_complement hl hb c
      calc (j + thCL l b.toNat) % Nat.gcd l.toNat b.toNat
          = ((c + thL l) + thCL l b.toNat) % Nat.gcd l.toNat b.toNat := h1
        _ = (c + (thL l + thCL l b.toNat)) % Nat.gcd l.toNat b.toNat := by rw [h2]
        _ = c % Nat.gcd l.toNat b.toNat := h3
    constructor
    · rintro (⟨i', hi', hm', rfl⟩ | ⟨j', hj', hm', rfl⟩)
      · exact Or.inl ⟨i', hi', hm'.trans hkey, rfl⟩
      · exact Or.inr ⟨j', hj', hm'.trans hmod, rfl⟩
    · rintro (⟨i', hi', hm', rfl⟩ | ⟨j', hj', hm', rfl⟩)
      · exact Or.inl ⟨i', hi', hm'.trans hkey.symm, rfl⟩
      · exact Or.inr ⟨j', hj', hm'.trans hmod.symm, rfl⟩

theorem th_strands_loop {l b : Int} (hl : 1 ≤ l) (hb : 1 ≤ b) (sel : List Pt → Nat) :
    ∀ (fuel : Nat) (S : Finset Nat) (rv : List (List Pt)),
      S ⊆ Finset.range (Nat.gcd l.toNat b.toNat) →
      S.card < fuel →
      ∃ out, strandsGo (thKnot l b) sel fuel
          ((thPts l b).filter (fun q =>
            decide (∃ c ∈ S, thClass l b.toNat (Nat.gcd l.toNat b.toNat) c q = true)))
          none rv = .ok out ∧
        out.length = rv.length + S.card := by
  have hbn : 0 < b.toNat := by omega
  have hg : 0 < Nat.gcd l.toNat b.toNat := Nat.gcd_pos_of_pos_right _ hbn
  have hgbn : Nat.gcd l.toNat b.toNat ∣ b.toNat := Nat.gcd_dvd_right _ _
  have hgle : Nat.gcd l.toNat b.toNat ≤ b.toNat := Nat.le_of_dvd hbn hgbn
  intro fuel
  induction fuel with
  | zero =>
    intro S rv hS hcard
    omega
  | succ fuel ih =>
    intro S rv hS hcard
    by_cases hSemp : S = ∅
    · subst hSemp
      have hfil : (thPts l b).filter (fun q =>
          decide (∃ c ∈ (∅ : Finset Nat),
            thClass l b.toNat (Nat.gcd l.toNat b.toNat) c q = true)) = [] := by
        rw [List.filter_eq_nil_iff]
        intro x hx
        simp
      rw [hfil]
      refine ⟨rv.reverse, rfl, by simp⟩
    · obtain ⟨c0, hc0⟩ := Finset.nonempty_iff_ne_empty.mpr hSemp
      have hc0g : c0 < Nat.gcd l.toNat b.toNat := Finset.mem_range.mp (hS hc0)
      have hb0 : botPt c0 ∈ (thPts l b).filter (fun q =>
          decide (∃ c ∈ S, thClass l b.toNat (Nat.gcd l.toNat b.toNat) c q = true)) := by
        rw [List.mem_filter]
        constructor
        · exact botPt_mem_thPts (by omega)
        · rw [decide_eq_true_iff]
          refine ⟨c0, hc0, ?_⟩
          unfold thClass
          rw [decide_eq_true_iff]
          exact Or.inl ⟨c0, Finset.mem_range.mpr (by omega), rfl, rfl⟩
      cases hvis : (thPts l b).filter (fun q =>
          decide (∃ c ∈ S, thClass l b.toNat (Nat.gcd l.toNat b.toNat) c q = true)) with
      | nil =>
        rw [hvis] at hb0
        cases hb0
      | cons v vs =>
        have hsm : (v :: vs).get ⟨sel (v :: vs) % (vs.length + 1),
            Nat.mod_lt _ (Nat.succ_pos _)⟩ ∈ v :: vs := List.get_mem _ _ _
        have hsm2 : (v :: vs).get ⟨sel (v :: vs) % (vs.length + 1),
            Nat.mod_lt _ (Nat.succ_pos _)⟩ ∈ (thPts l b).filter (fun q =>
              decide (∃ c ∈ S, thClass l b.toNat (Nat.gcd l.toNat b.toNat) c q = true)) := by
          rw [hvis]
          exact hsm
        rw [List.mem_filter] at hsm2
        obtain ⟨hstPts, hstCls⟩ := hsm2
        rw [decide_eq_true_iff] at hstCls
        obtain ⟨c, hcS, hclass⟩ := hstCls
        obtain ⟨current, hcirc, hequiv⟩ := th_trace_class hl hb hclass
        have hcg : c < Nat.gcd l.toNat b.toNat := Finset.mem_range.mp (hS hcS)
        have hstep : strandsGo (thKnot l b) sel (fuel + 1) (v :: vs) none rv =
            strandsGo (thKnot l b) sel fuel
              ((v :: vs).filter (fun q => !(current.contains q))) none (current :: rv) := by
          simp only [strandsGo, hcirc]
        have hfilter : (v :: vs).filter (fun q => !(current.contains q)) =
            (thPts l b).filter (fun q =>
              decide (∃ c' ∈ S.erase c,
                thClass l b.toNat (Nat.gcd l.toNat b.toNat) c' q = true)) := by
          rw [← hvis, List.filter_filter]
          refine List.filter_congr ?_
          intro q hq
          refine bool_eq_of_iff ?_
          rw [Bool.and_eq_true, Bool.not_eq_true', decide_eq_true_iff, decide_eq_true_iff,
            contains_eq_false_iff, hequiv q]
          constructor
          · rintro ⟨hnc, c', hc', hcl'⟩
            refine ⟨c', Finset.mem_erase.mpr ⟨?_, hc'⟩, hcl'⟩
            intro hceq
            subst hceq
            exact hnc hcl'
          · rintro ⟨c', hc', hcl'⟩
            rw [Finset.mem_erase] at hc'
            have hc'g : c' < Nat.gcd l.toNat b.toNat := Finset.mem_range.mp (hS hc'.2)
            refine ⟨?_, c', hc'.2, hcl'⟩
            intro hcq
            have hmods := th_class_disjoint hl hb hcq hcl'
            rw [Nat.mod_eq_of_lt hcg, Nat.mod_eq_of_lt hc'g] at hmods
            exact hc'.1 hmods.symm
        obtain ⟨out, hout, hlen⟩ := ih (S.erase c) (current :: rv)
          (fun x hx => hS (Finset.mem_of_mem_erase hx))
          (by
            have hce := Finset.card_erase_of_mem hcS
            have hpos : 0 < S.card := Finset.card_pos.mpr ⟨c, hcS⟩
            omega)
        refine ⟨out, ?_, ?_⟩
        · rw [hstep, hfilter]
          exact hout
        · rw [hlen]
          have hce := Finset.card_erase_of_mem hcS
          have hpos : 0 < S.card := Finset.card_pos.mpr ⟨c, hcS⟩
          simp only [List.length_cons]
          omega

theorem th_strands_count {l b : Int} (hl : 1 ≤ l) (hb : 1 ≤ b) (sel : List Pt → Nat) :
    ∃ out, (thKnot l b).strands sel none = .ok out ∧
      out.length = Nat.gcd l.toNat b.toNat := by
  have hbn : 0 < b.toNat := by omega
  have hg : 0 < Nat.gcd l.toNat b.toNat := Nat.gcd_pos_of_pos_right _ hbn
  have hgbn : Nat.gcd l.toNat b.toNat ∣ b.toNat := Nat.gcd_dvd_right _ _
  have hgle : Nat.gcd l.toNat b.toNat ≤ b.toNat := Nat.le_of_dvd hbn hgbn
  have hcover : (thPts l b).filter (fun q =>
      decide (∃ c ∈ Finset.range (Nat.gcd l.toNat b.toNat),
        thClass l b.toNat (Nat.gcd l.toNat b.toNat) c q = true)) = thPts l b := by
    rw [List.filter_eq_self]
    intro q hq
    rw [decide_eq_true_iff]
    rcases mem_thPts.mp hq with ⟨i, hi, rfl⟩ | ⟨j, hj, rfl⟩
    · refine ⟨i % Nat.gcd l.toNat b.toNat, Finset.mem_range.mpr (Nat.mod_lt _ hg), ?_⟩
      unfold thClass
      rw [decide_eq_true_iff]
      exact Or.inl ⟨i, Finset.mem_range.mpr hi,
        (Nat.mod_mod_of_dvd i (dvd_refl _)).symm, rfl⟩
    · refine ⟨(j + thCL l b.toNat) % Nat.gcd l.toNat b.toNat,
        Finset.mem_range.mpr (Nat.mod_lt _ hg), ?_⟩
      unfold thClass
      rw [decide_eq_true_iff]
      refine Or.inr ⟨j, Finset.mem_range.mpr hj, ?_, rfl⟩
      rw [Nat.mod_add_mod]
      rw [show (j + thCL l b.toNat + thL l) = (j + (thL l + thCL l b.toNat)) from by omega]
      exact (th_class_add_complement hl hb j).symm
  obtain ⟨out, hout, hlen⟩ := th_strands_loop hl hb sel ((thPts l b).length + 1)
    (Finset.range (Nat.gcd l.toNat b.toNat)) [] (fun x hx => hx)
    (by
      rw [Finset.card_range, thPts_length]
      omega)
  refine ⟨out, ?_, ?_⟩
  · show strandsGo (thKnot l b) sel ((thPts l b).length + 1) (thPts l b) none [] = .ok out
    rw [hcover] at hout
    exact hout
  · rw [hlen, Finset.card_range]
    simp

/-- C1: for all positive leads and bights and every pop order of the working
set, the number of circuits strands() returns on the knot Knot.TH(leads,
bights) builds equals gcd(leads, bights). -/
theorem C1_TH_strand_count {l b : Int} (hl : 0 < l) (hb : 0 < b) (sel : List Pt → Nat) :
    ((Knot.TH l b).bind (fun k => k.strands sel none)).map List.length =
      .ok (Int.gcd l b) := by
  have hl1 : 1 ≤ l := hl
  have hb1 : 1 ≤ b := hb
  obtain ⟨out, hout, hlen⟩ := th_strands_count hl1 hb1 sel
  rw [TH_eq hl1 hb1]
  show ((thKnot l b).strands sel none).map List.length = .ok (Int.gcd l b)
  rw [hout]
  show Except.ok out.length = Except.ok (Int.gcd l b)
  rw [hlen]
  have h1 : l.toNat = l.natAbs := by omega
  have h2 : b.toNat = b.natAbs := by omega
  rw [h1, h2]
  rfl

/-- Witness for C1 at leads 2, bights 3 with the first-element pop order:
the decomposition has exactly gcd(2, 3) = 1 strand. -/
theorem C1_TH_strand_count_witness :
    ((Knot.TH 2 3).bind (fun k => k.strands (fun _ => 0) none)).map List.length =
      .ok (Int.gcd 2 3) :=
  C1_TH_strand_count (by decide) (by decide) (fun _ => 0)

end Knots
